import Mathlib

/-!
Verification development for the AUVSI search-path planner
(`Polygon.cpp`, `Conversions.cpp`, `main.cpp`).

Modelling conventions.

* The C++ `float_type` is `double`; the development models it by exact
  rational arithmetic (`ℚ`).  All decimal constants of the source
  (`RADIUS = 36.6`, `OFFSET`, `CORRECTION`, `INF = 1000000`,
  `EPSILON = DBL_EPSILON = 2⁻⁵²`) are taken as the exact rationals they
  denote.
* Quantities produced by `sqrt` and `atan2` are irrational; the source
  only ever *compares* them or feeds them to `cos`/`sin`.  Those values
  are therefore abstracted into a parameter record `Geo`
  (vertex-edge distance, edge angle, the offset vector
  `RADIUS·(cos(θ+π/2), sin(θ+π/2))` of the boundary router, and the
  value of `PI`).  Every theorem quantified over `Geo` holds in
  particular for the real-arithmetic instantiation.  Where a concrete
  instantiation is needed the polygons involved are axis-aligned, for
  which `Edge::theta` is special-cased in the source to the exact
  values `0`, `π`, `±π/2`, so the corresponding exact offset vectors
  `(±RADIUS, 0)`, `(0, ±RADIUS)` are faithful.
* `std::list` iteration with in-place mutation is modelled functionally;
  `l.erase(it2); continue;` (which relies on the erased iterator
  surviving until the next `++`/comparison) is modelled as resuming the
  scan at the element following the erased one, the behaviour of the
  deployed program.
-/

/-- DBL_EPSILON, the machine epsilon of `double`, as an exact rational. -/
def EPS : ℚ := 1 / 4503599627370496

/-- INF of Polygon.cpp: an effective infinity that does not overflow. -/
def INFQ : ℚ := 1000000

/-- RADIUS of Config.h: the turn radius of the drone in meters (36.6). -/
def RADIUSQ : ℚ := 183 / 5

/-- OFFSET of Config.h: spacing between sweep lines; defined as RADIUS. -/
def OFFSETQ : ℚ := RADIUSQ

/-- CORRECTION of Config.h: inward scaling distance; defined as RADIUS. -/
def CORRECTIONQ : ℚ := RADIUSQ

/-- Coord of Polygon.cpp: a 2-D coordinate, also used as a vector. -/
structure Coord where
  x : ℚ
  y : ℚ
deriving DecidableEq, Repr

instance : Inhabited Coord := ⟨⟨0, 0⟩⟩

/-- Coord::operator+ (vector addition). -/
def Coord.add (a b : Coord) : Coord := ⟨a.x + b.x, a.y + b.y⟩

/-- Coord::operator- (vector subtraction). -/
def Coord.sub (a b : Coord) : Coord := ⟨a.x - b.x, a.y - b.y⟩

/-- Coord::operator* with a scalar (scalar multiplication). -/
def Coord.smul (a : Coord) (m : ℚ) : Coord := ⟨m * a.x, m * a.y⟩

/-- cross of Polygon.cpp: 2-D cross product of two coordinates. -/
def crossQ (c1 c2 : Coord) : ℚ := c1.x * c2.y - c2.x * c1.y

/-- Edge of Polygon.cpp: two vertices plus the standard-form
coefficients `a`, `b`, `c` that its constructor computes. -/
structure Edge where
  v1 : Coord
  v2 : Coord
  a : ℚ
  b : ℚ
  c : ℚ
deriving DecidableEq, Repr

instance : Inhabited Edge := ⟨⟨⟨0, 0⟩, ⟨0, 0⟩, 0, 0, 0⟩⟩

/-- Edge::Edge(Coord, Coord).  For a perfectly vertical edge the C++
constructor stores `m = INFINITY` as an explicit placeholder ("merely a
placeholder in this case"); no consumer reads `a`, `c` of a vertical
edge, and the model stores `0` for them.  `b` is `1` in both branches,
exactly as in the source. -/
def mkEdge (vert1 vert2 : Coord) : Edge :=
  if vert1.x = vert2.x then
    ⟨vert1, vert2, 0, 1, 0⟩
  else
    let m : ℚ := (vert2.y - vert1.y) / (vert2.x - vert1.x)
    ⟨vert1, vert2, -m, 1, m * vert1.x - vert1.y⟩

/-- Edge::isVertical. -/
def Edge.isVert (e : Edge) : Bool := e.v1.x = e.v2.x

/-- Denominator squared of the non-vertical branch of
`distance(const Coord&, const Edge&)`: the argument of the `sqrt` in
`denom = sqrt(e.a * e.a + e.b * e.b)`. -/
def distDenomSq (e : Edge) : ℚ := e.a * e.a + e.b * e.b

/-- Edge::operator==: undirected equality on the endpoint pair. -/
def edgeEqB (e1 e2 : Edge) : Bool :=
  (e1.v1 = e2.v1 && e1.v2 = e2.v2) || (e1.v1 = e2.v2 && e1.v2 = e2.v1)

/-- intersection of Polygon.cpp: Graham-style parametric segment
intersection test; collinear and parallel segments report no
intersection. -/
def intersectionF (e1 e2 : Edge) : Option Coord :=
  let p1 := e1.v1
  let p2 := e1.v2
  let q1 := e2.v1
  let q2 := e2.v2
  let r : Coord := ⟨p2.x - p1.x, p2.y - p1.y⟩
  let s : Coord := ⟨q2.x - q1.x, q2.y - q1.y⟩
  let rxs : ℚ := crossQ r s
  let qpxr : ℚ := crossQ ⟨q1.x - p1.x, q1.y - p1.y⟩ r
  if |rxs| < EPS ∧ |qpxr| < EPS then none
  else if |rxs| < EPS ∧ ¬(|qpxr| < EPS) then none
  else
    let t : ℚ := crossQ (q1.sub p1) s / rxs
    let u : ℚ := crossQ (q1.sub p1) r / rxs
    if ¬(|rxs| < EPS) ∧ (0 ≤ t ∧ t ≤ 1) ∧ (0 ≤ u ∧ u ≤ 1) then
      some (p1.add (r.smul t))
    else none

/-- Polygons are their CCW vertex lists. -/
def Pgon := List Coord

instance : DecidableEq Pgon := inferInstanceAs (DecidableEq (List Coord))

instance : Inhabited Pgon := ⟨([] : List Coord)⟩

/-- Polygon::edge(i): the edge from vertex `i` to vertex `(i+1) mod n`. -/
def edgeAt (p : Pgon) (i : Nat) : Edge :=
  mkEdge (p.getD i default) (p.getD ((i + 1) % p.length) default)

/-- isConcave of Polygon.cpp: vertex `i` is concave iff the z-component
of `BA × BC` is positive (A, B, C the previous, current, next vertex;
the polygon is CCW). -/
def isConcaveB (p : Pgon) (i : Nat) : Bool :=
  let n := p.length
  let prevIndex := (i + n - 1) % n
  let bax := (p.getD prevIndex default).x - (p.getD i default).x
  let bay := (p.getD prevIndex default).y - (p.getD i default).y
  let bcx := (p.getD ((i + 1) % n) default).x - (p.getD i default).x
  let bcy := (p.getD ((i + 1) % n) default).y - (p.getD i default).y
  bax * bcy - bay * bcx > 0

/-- Number of concave vertices of a polygon (the `numConcave` count of
`mergeSubregions` and `searchPath`). -/
def concaveCount (p : Pgon) : Nat :=
  ((List.range p.length).filter (fun i => isConcaveB p i)).length

/-!  Local tangent-plane conversion (Conversions.cpp / main.cpp).

`GPStoCartesian` is trigonometric; what the two `GPStoCoord`
implementations do with its output is pure linear algebra, so they are
modelled as functions of the already-computed ECEF coordinate of the
point (`cart`), of the reference (`ref = global::refCart`), and of the
conversion matrix (`global::convMatrix`).  Determinism of
`GPStoCartesian` means the reference GPS point is mapped to
`cart = ref` exactly. -/

/-- Three-dimensional ECEF vector. -/
structure V3 where
  x : ℚ
  y : ℚ
  z : ℚ
deriving DecidableEq, Repr

/-- Conversion matrix `global::convMatrix` (row-major 3×3). -/
structure M3 where
  m00 : ℚ
  m01 : ℚ
  m02 : ℚ
  m10 : ℚ
  m11 : ℚ
  m12 : ℚ
  m20 : ℚ
  m21 : ℚ
  m22 : ℚ
deriving DecidableEq, Repr

/-- GPStoCoord as implemented in Conversions.cpp (lines 129-149):
subtract the reference, then take rows 0 and 1 of
`convMatrix * standardCart`. -/
def GPStoCoordConv (m : M3) (ref cart : V3) : Coord :=
  let dx := cart.x - ref.x
  let dy := cart.y - ref.y
  let dz := cart.z - ref.z
  ⟨m.m00 * dx + m.m01 * dy + m.m02 * dz,
   m.m10 * dx + m.m11 * dy + m.m12 * dz⟩

/-- GPStoCoord as implemented in main.cpp (lines 180-200).  The `x`
component reads `convMatrix[0][2] + standardCart[Z]` — a `+` where
Conversions.cpp (and the surrounding comment) have a `*`. -/
def GPStoCoordMain (m : M3) (ref cart : V3) : Coord :=
  let dx := cart.x - ref.x
  let dy := cart.y - ref.y
  let dz := cart.z - ref.z
  ⟨m.m00 * dx + m.m01 * dy + m.m02 + dz,
   m.m10 * dx + m.m11 * dy + m.m12 * dz⟩

/-!  Chord validity test of `decompose` (Polygon.cpp lines 434-455).

The test consumes only the angle values `theta1 = θ(edge_c)`,
`theta2 = θ(edge_{c-1})` and `splitTheta = θ(chord)` together with the
constants `PI` and `EPSILON`; it is modelled as a function of those
five rationals. -/

/-- Chord validity exactly as coded: `theta2` is zeroed whenever
`theta2 - PI < EPSILON` (which always holds, since `theta() ≤ PI`),
otherwise increased by `PI`; then the two-branch sector test runs. -/
def chordValidCode (piv eps θ1 θ2o θs : ℚ) : Bool :=
  let θ2 : ℚ := if θ2o - piv < eps then 0 else θ2o + piv
  if θ1 > θ2 then !(decide (θs > θ2) && decide (θs < θ1))
  else decide (θs ≥ θ1) && decide (θs ≤ θ2)

/-- Chord validity as the specification words it: `θ2 = θ(edge_{c-1}) + π`
(reversed inbound direction); if `θ1 > θ2` the chord is valid iff not
`θ2 < θ_s < θ1`, otherwise valid iff `θ1 ≤ θ_s ≤ θ2`. -/
def chordValidSpec (piv θ1 θ2o θs : ℚ) : Bool :=
  let θ2 : ℚ := θ2o + piv
  if θ1 > θ2 then !(decide (θs > θ2) && decide (θs < θ1))
  else decide (θs ≥ θ1) && decide (θs ≤ θ2)

/-!  Decomposition (Polygon.cpp `getWidth`, `split`, `decompose`). -/

/-- Parameter record abstracting the irrational-valued primitives of the
source.  `dist` models `distance(const Coord&, const Edge&)` (a square
root), `theta` models `Edge::theta()` (an `atan2`), `off` models the
boundary-router offset vector
`RADIUS * (cos(theta(e) + PI/2), sin(theta(e) + PI/2))`, and `piv`
models the constant `PI`.  The source only compares the first two and
only adds the third, so every theorem below quantified over `Geo` holds
for the real-arithmetic instantiation. -/
structure Geo where
  dist : Coord → Edge → ℚ
  theta : Edge → ℚ
  off : Edge → Coord
  piv : ℚ

/-- getWidth of Polygon.cpp (the O(n²) implementation): for each edge
take the farthest of the vertices `v[(i+j) % n]`, `j = 2 … n-1`
(`maxDistance` starts at `-1`, `maxVert` default-constructed), then take
the span of minimum length (`minLength` starts at `-1`). -/
def getWidthSpan (g : Geo) (p : Pgon) : Coord × Edge :=
  let n := p.length
  let spans : List (Coord × Edge) := (List.range n).map (fun i =>
    let e := edgeAt p i
    let best := (((List.range n).drop 2).foldl (fun (acc : ℚ × Coord) j =>
      let cur := g.dist (p.getD ((i + j) % n) default) e
      if cur > acc.1 then (cur, p.getD ((i + j) % n) default) else acc)
      ((-1 : ℚ), default))
    (best.2, e))
  (spans.foldl (fun (acc : ℚ × Coord × Edge) sp =>
    let len := g.dist sp.1 sp.2
    if len < acc.1 ∨ acc.1 = -1 then (len, sp) else acc)
    ((-1 : ℚ), default, default)).2

/-- Span length of the width span, as used by the `widthSum` score
(`Span::operator+` adds the two `length()` values). -/
def widthLen (g : Geo) (p : Pgon) : ℚ :=
  let sp := getWidthSpan g p
  g.dist sp.1 sp.2

/-- split of Polygon.cpp: after ordering the two indices, `p1` receives
vertices `v1 … v2` and `p2` receives `v2, …, n-1, 0, …, v1` (the loop
runs `i` from `v2` until `i mod n = v1 + 1`).  The `abs(v1 - v2) < 2`
guard returns without writing; it is unreachable from `decompose`
(adjacent and equal indices are filtered there) and is modelled as the
pair of empty lists. -/
def splitF (p : Pgon) (a b : Nat) : Pgon × Pgon :=
  let v1 := min a b
  let v2 := max a b
  if v2 - v1 < 2 then (([] : List Coord), ([] : List Coord))
  else
    ((List.range (v2 - v1 + 1)).map (fun k => p.getD (v1 + k) default),
     (List.range (p.length - (v2 - v1) + 1)).map
       (fun k => p.getD ((v2 + k) % p.length) default))

/-- One candidate-scan state of `decompose`: the current `minWidthSum`
(sentinel `-1`) and the chosen split vertices `v1`, `v2`. -/
def decompStep (g : Geo) (p : Pgon) (ac : Bool) (st : ℚ × Nat × Nat)
    (c j : Nat) : ℚ × Nat × Nat :=
  let n := p.length
  let adjacent := ((c + 1) % n = j) || ((c + n - 1) % n = j)
  if c ≠ j ∧ ¬adjacent ∧ (isConcaveB p j ∨ ac) then
    let θs := g.theta (mkEdge (p.getD c default) (p.getD j default))
    let θ1 := g.theta (edgeAt p c)
    let θ2o := g.theta (edgeAt p ((c + n - 1) % n))
    if chordValidCode g.piv EPS θ1 θ2o θs then
      let pr := splitF p c j
      let ws := widthLen g pr.1 + widthLen g pr.2
      if ws < st.1 ∨ st.1 < 0 then (ws, c, j) else st
    else st
  else st

/-- One full pass of the candidate loops of `decompose` (outer loop over
the concave vertices, inner loop over all vertices). -/
def decompPass (g : Geo) (p : Pgon) (cav : List Nat) (ac : Bool) :
    ℚ × Nat × Nat :=
  cav.foldl (fun st c =>
    (List.range p.length).foldl (fun st2 j => decompStep g p ac st2 c j) st)
    ((-1 : ℚ), 0, 0)

/-- Split selection of `decompose`: a pass with `acceptConvex` set iff
there is exactly one concave vertex; if it leaves `minWidthSum = -1`
and `acceptConvex` was off, one relaxed pass with `acceptConvex = true`.
If that also fails the C++ `while` loop never exits; the model returns
`none`. -/
def findSplit (g : Geo) (p : Pgon) (cav : List Nat) : Option (Nat × Nat) :=
  let ac0 := cav.length = 1
  let r1 := decompPass g p cav ac0
  if r1.1 ≠ -1 then some r1.2
  else if ac0 then none
  else
    let r2 := decompPass g p cav true
    if r2.1 ≠ -1 then some r2.2 else none

/-- decompose of Polygon.cpp, fuel-indexed: a convex polygon is emitted
as is; otherwise the minimum-width-sum chord is selected, the polygon is
split there and both children are decomposed in order.  `none` models
non-termination (fuel exhaustion or no valid chord). -/
def decomposeF (g : Geo) : Nat → Pgon → Option (List Pgon)
  | 0, _ => none
  | fuel + 1, p =>
    let cav := (List.range p.length).filter (fun i => isConcaveB p i)
    if cav = [] then some [p]
    else
      match findSplit g p cav with
      | none => none
      | some (a, b) =>
        let pr := splitF p a b
        match decomposeF g fuel pr.1, decomposeF g fuel pr.2 with
        | some l1, some l2 => some (l1 ++ l2)
        | _, _ => none

/-!  Merge pass (Polygon.cpp `merge`, `Polygon::adjacent`,
`mergeSubregions`). -/

/-- Polygon::adjacent: the first pair `(i, j)` (outer loop over the
edges of `p`, inner loop over the edges of `q`) with
`edge(i) == q.edge(j)` under the undirected edge equality; `none` when
no edge is shared. -/
def adjacentF (p q : Pgon) : Option (Nat × Nat) :=
  (List.range p.length).findSome? (fun i =>
    ((List.range q.length).find? (fun j => edgeEqB (edgeAt p i) (edgeAt q j))).map
      (fun j => (i, j)))

/-- merge of Polygon.cpp: all vertices of `p1` starting after the shared
edge (`(i + 1 + z) mod n1`, `z = 0 … n1-1`), then the vertices of `p2`
at `(j + 1 + z) mod n2` for `z = 1 … n2-2`. -/
def mergeF (p1 p2 : Pgon) (i j : Nat) : Pgon :=
  (List.range p1.length).map (fun z => p1.getD ((i + 1 + z) % p1.length) default)
    ++ (List.range (p2.length - 2)).map
        (fun z => p2.getD ((j + 1 + (z + 1)) % p2.length) default)

/-- Merge attempt of the `mergeSubregions` inner loop: when the two
polygons are adjacent and the merged polygon has zero concave vertices,
the merged polygon replaces `*it1`. -/
def tryMerge (a b : Pgon) : Option Pgon :=
  match adjacentF a b with
  | none => none
  | some (i, j) =>
    let m := mergeF a b i j
    if concaveCount m = 0 then some m else none

/-- Scan of `it2` over one side of the list while `it1` holds `a`: a
successful merge replaces `a`, erases the partner and resumes with the
remainder; otherwise the partner is kept and the scan moves on. -/
def scanPart (a : Pgon) : List Pgon → Pgon × List Pgon
  | [] => (a, [])
  | b :: t =>
    match tryMerge a b with
    | some m => scanPart m t
    | none =>
      let r := scanPart a t
      (r.1, b :: r.2)

/-- Outer `it1` loop of `mergeSubregions`: the current element first
scans the elements before it (which the C++ inner loop visits from
`l.begin()`), then the elements after it, and the walk moves to the next
element.  The first argument counts the remaining `it1` steps; every
step removes at least one element from the remainder, so
`l.length` steps always suffice and the fuel-exhaustion branch is
unreachable from `mergeSubF`. -/
def mergeOuter : Nat → List Pgon → List Pgon → List Pgon
  | 0, pre, rest => pre ++ rest
  | _fuel + 1, pre, [] => pre
  | fuel + 1, pre, a :: post =>
    let r1 := scanPart a pre
    let r2 := scanPart r1.1 post
    mergeOuter fuel (r1.2 ++ [r2.1]) r2.2

/-- mergeSubregions of Polygon.cpp on the whole list. -/
def mergeSubF (l : List Pgon) : List Pgon := mergeOuter l.length [] l

/-!  Naive traversal (Polygon.cpp `naiveTraverse`, lines 960-1031).

The function is trig-free: its `getWidth` call is dead (the result is
never used) and the sweep line is horizontal, advanced by `OFFSET / 2.0`
both initially and at the end of every loop iteration.  The emitted
edges are tagged with their loop iteration index `j` so that the
host-line positions can be related to the iteration count. -/

/-- C-style truncation toward zero of a `double` stored into an `int`
(the declaration `int minY` of `naiveTraverse`). -/
def cTrunc (q : ℚ) : ℤ := if q < 0 then -((-q).floor) else q.floor

/-- Minimum-y scan of `naiveTraverse`: `minY` is an `int`, so every
store truncates; comparisons promote it back to `double`. -/
def minYInt (p : Pgon) : ℤ :=
  p.tail.foldl (fun m c => if c.y < (m : ℚ) then cTrunc c.y else m)
    (cTrunc (p.headD default).y)

/-- Intersection scan of `naiveTraverse` from edge index `i` with
`rem = p.length - i` edges left to visit (the loop guard `i < p.size()`
is exactly `rem > 0`): the first edge at or after `i` that intersects
the sweep line, together with the index value after the `++i` (where
the next scan resumes). -/
def scanInterAux (sweep : Edge) (p : Pgon) : Nat → Nat → Option (Coord × Nat)
  | 0, _ => none
  | rem + 1, i =>
    match intersectionF sweep (edgeAt p i) with
    | some c => some (c, i + 1)
    | none => scanInterAux sweep p rem (i + 1)

/-- Intersection scan of `naiveTraverse` starting at edge index `i`. -/
def scanInter (sweep : Edge) (p : Pgon) (i : Nat) : Option (Coord × Nat) :=
  scanInterAux sweep p (p.length - i) i

/-- Vertical translation of the sweep line: the two statements
`sweepLine.v1.y += d; sweepLine.v2.y += d` (the `a`, `b`, `c` fields
are untouched). -/
def shiftY (e : Edge) (d : ℚ) : Edge :=
  ⟨⟨e.v1.x, e.v1.y + d⟩, ⟨e.v2.x, e.v2.y + d⟩, e.a, e.b, e.c⟩

/-- Correction, flip check and parity emission of one `naiveTraverse`
iteration on the two found intersections: the `CORRECTION` shift is
applied to the x coordinates only, the pair is discarded when the
endpoint order flipped, and the edge is emitted as `(inter1, inter2)`
for even `j` and `(inter2, inter1)` for odd `j`. -/
def naiveEmit (j : Nat) (inter1 inter2 : Coord) : List (Nat × Edge) :=
  let c1 : Coord :=
    if inter2.x > inter1.x then ⟨inter1.x + CORRECTIONQ, inter1.y⟩
    else ⟨inter1.x - CORRECTIONQ, inter1.y⟩
  let c2 : Coord :=
    if inter2.x > inter1.x then ⟨inter2.x - CORRECTIONQ, inter2.y⟩
    else ⟨inter2.x + CORRECTIONQ, inter2.y⟩
  let valid : Bool :=
    !((decide (inter1.x > inter2.x) && decide (c1.x < c2.x)) ||
      (decide (inter1.x < inter2.x) && decide (c1.x > c2.x)))
  if valid then
    if j % 2 = 0 then [(j, mkEdge c1 c2)] else [(j, mkEdge c2 c1)]
  else []

/-- Do-while loop of `naiveTraverse`, fuel-indexed: find the first two
intersections in edge order, emit the corrected pair, advance the sweep
line by `OFFSET / 2` and repeat while the first intersection existed. -/
def naiveLoop (p : Pgon) : Nat → Edge → Nat → Option (List (Nat × Edge))
  | 0, _, _ => none
  | fuel + 1, sweep, j =>
    match scanInter sweep p 0 with
    | none => some []
    | some (inter1, next) =>
      let emitted : List (Nat × Edge) :=
        match scanInter sweep p next with
        | none => []
        | some (inter2, _) => naiveEmit j inter1 inter2
      match naiveLoop p fuel (shiftY sweep (OFFSETQ / 2)) (j + 1) with
      | some rest => some (emitted ++ rest)
      | none => none

/-- naiveTraverse of Polygon.cpp: the horizontal sweep line starts at
the truncated minimum y, is advanced once by `OFFSET / 2` before the
loop, and the loop runs with iteration counter `j` starting at 0.  The
sweep edge has the default-constructed standard-form coefficients
(`a = b = c = 0`), exactly as in the source, where the sweep `Edge` is
default-constructed and only its endpoints are assigned. -/
def naiveTraverseF (p : Pgon) (fuel : Nat) : Option (List (Nat × Edge)) :=
  let y0 : ℚ := (minYInt p : ℚ) + OFFSETQ / 2
  naiveLoop p fuel ⟨⟨-INFQ, y0⟩, ⟨INFQ, y0⟩, 0, 0, 0⟩ 0

/-!  Boundary-safe router (Polygon.cpp `pathToHelp` / `pathTo`).

`pathToHelp` mutates a shared `std::list` and, after inserting the
offset intersection points of one segment, re-walks every adjacent pair
of the whole path.  A pair's expansion depends only on its two endpoints
and the boundary, pairs are disjoint segments of the path, and a pair
without intersections is left untouched, so the rewriting is confluent;
it is modelled by the local recursion `unfoldPair` that expands one
segment and then recursively expands every adjacent pair of the expanded
chain, with fuel standing for termination of the C++ recursion. -/

/-- Squared Euclidean distance.  The `Comp` comparator of `pathTo`
compares `distance(point, c1) < distance(point, c2)`; squaring is
strictly monotone on nonnegative reals, so comparing squared distances
decides the same order. -/
def distSq (u v : Coord) : ℚ := (v.y - u.y) * (v.y - u.y) + (v.x - u.x) * (v.x - u.x)

/-- Ordered insertion for the sort of the intersection list by distance
from `point1`. -/
def insertByDist (a : Coord) (x : Nat × Coord) :
    List (Nat × Coord) → List (Nat × Coord)
  | [] => [x]
  | y :: t =>
    if distSq a x.2 < distSq a y.2 then x :: y :: t
    else y :: insertByDist a x t

/-- Sort of the intersection list by distance from `point1`
(`std::sort` with the `Comp` comparator; stability is irrelevant to the
properties proved here). -/
def sortByDist (a : Coord) : List (Nat × Coord) → List (Nat × Coord)
  | [] => []
  | x :: t => insertByDist a x (sortByDist a t)

/-- Intersection collection loop of `pathToHelp`: every boundary edge
index `i` whose edge intersects the segment, paired with the
intersection point, in edge order. -/
def rawInters (boundary : Pgon) (a b : Coord) : List (Nat × Coord) :=
  (List.range boundary.length).filterMap (fun i =>
    (intersectionF (mkEdge a b) (edgeAt boundary i)).map (fun c => (i, c)))

/-- Sorted and offset intersection points of one segment: each point is
moved by `RADIUS * (cos(θ(edge)+π/2), sin(θ(edge)+π/2))`, the `Geo.off`
vector of its boundary edge. -/
def crossPts (g : Geo) (boundary : Pgon) (a b : Coord) : List Coord :=
  (sortByDist a (rawInters boundary a b)).map
    (fun pr => (pr.2).add (g.off (edgeAt boundary pr.1)))

/-- Expansion of every adjacent pair of a point chain, gluing the
results on their shared endpoints. -/
def unfoldChain (f : Coord → Coord → Option (List Coord)) :
    List Coord → Option (List Coord)
  | [] => some []
  | [x] => some [x]
  | x :: y :: rest =>
    match f x y, unfoldChain f (y :: rest) with
    | some s, some r => some (s.dropLast ++ r)
    | _, _ => none

/-- pathToHelp of Polygon.cpp on one segment, fuel-indexed: a segment
with no boundary intersections is final; otherwise the sorted offset
points are inserted between the endpoints and every adjacent pair of the
expanded chain is recursively unfolded.  `none` models non-termination
of the C++ recursion. -/
def unfoldPair (g : Geo) (boundary : Pgon) :
    Nat → Coord → Coord → Option (List Coord)
  | 0, _, _ => none
  | fuel + 1, a, b =>
    if rawInters boundary a b = [] then some [a, b]
    else unfoldChain (unfoldPair g boundary fuel) (a :: crossPts g boundary a b ++ [b])

/-- pathTo of Polygon.cpp: run `pathToHelp` on the two terminal points
and strip them from the final chain. -/
def pathToF (g : Geo) (boundary : Pgon) (fuel : Nat) (p1 p2 : Coord) :
    Option (List Coord) :=
  (unfoldPair g boundary fuel p1 p2).map (fun l => l.drop 1 |>.dropLast)

/-- Termination of `pathToHelp` on a pair of points: some fuel suffices. -/
def pathToTerminates (g : Geo) (boundary : Pgon) (p1 p2 : Coord) : Prop :=
  ∃ n, (unfoldPair g boundary n p1 p2).isSome

/-- Safety of one polyline segment, as decided by the program's own
segment-intersection test: no boundary edge intersects it. -/
def cleanSegP (boundary : Pgon) (x y : Coord) : Prop :=
  ∀ i < boundary.length, intersectionF (mkEdge x y) (edgeAt boundary i) = none

instance (boundary : Pgon) (x y : Coord) : Decidable (cleanSegP boundary x y) :=
  inferInstanceAs (Decidable (∀ i < boundary.length, _ = none))

/-!  Input readers (main.cpp) and path expansion (searchPath).

The three readers of `main` consume comma-delimited fields with
`getline(input, BUFF_MAX, ',')` and convert each with `atof`; a stream
is modelled as the list of already-converted field values.  The
search-grid and boundary loops issue three `getline` calls per
iteration (ordinal, latitude, longitude), the mission loop four
(ordinal, latitude, longitude, altitude); a field read past the end of
the stream yields `atof("") = 0`. -/

/-- Search-grid / boundary reader loop of main.cpp (lines 93-102 and
108-117): per iteration, ordinal, latitude and longitude are read; the
collected (latitude, longitude) pairs are returned. -/
def searchFields : List ℚ → List (ℚ × ℚ)
  | [] => []
  | [_o] => [(0, 0)]
  | [_o, la] => [(la, 0)]
  | _o :: la :: lo :: rest => (la, lo) :: searchFields rest

/-- Mission reader loop of main.cpp (lines 124-138): per iteration,
ordinal, latitude, longitude and altitude are read. -/
def missionFields : List ℚ → List (ℚ × ℚ × ℚ × ℚ)
  | [] => []
  | [o] => [(o, 0, 0, 0)]
  | [o, la] => [(o, la, 0, 0)]
  | [o, la, lo] => [(o, la, lo, 0)]
  | o :: la :: lo :: al :: rest => (o, la, lo, al) :: missionFields rest

/-- Record extraction the specification describes for all three streams:
four comma-delimited fields per record, the latitude and longitude being
fields 2 and 3. -/
def specSearchPairs : List ℚ → List (ℚ × ℚ)
  | [] => []
  | [_o] => [(0, 0)]
  | [_o, la] => [(la, 0)]
  | [_o, la, lo] => [(la, lo)]
  | _o :: la :: lo :: _al :: rest => (la, lo) :: specSearchPairs rest

/-- Graph node data of searchPath relevant to path expansion: the
traversal path of the subregion and its start state.  The C++ `State`
is an `enum`; its underlying integer is modelled as a `Nat` so that the
`default:` branches of the source (values outside the four enumerators)
are expressible. -/
structure NodeR where
  path : List Edge
  startState : Nat
deriving DecidableEq, Repr

/-- Per-node part of the path-writing loop of searchPath (Polygon.cpp
lines 853-892): the switch on the start state; the `default:` branch
prints a warning and emits nothing. -/
def expandNode (nd : NodeR) : List Coord :=
  if nd.path.length > 0 then
    if nd.startState = 0 then nd.path.flatMap (fun e => [e.v1, e.v2])
    else if nd.startState = 1 then nd.path.flatMap (fun e => [e.v2, e.v1])
    else if nd.startState = 2 then nd.path.reverse.flatMap (fun e => [e.v1, e.v2])
    else if nd.startState = 3 then nd.path.reverse.flatMap (fun e => [e.v2, e.v1])
    else []
  else []

/-- Path-writing loop of searchPath over the traversal order: the nodes
are visited in order and each contributes its expansion. -/
def expandPaths (ns : List NodeR) : List Coord := ns.flatMap expandNode

/-!  Concrete instantiations used by witnesses and counterexamples. -/

/-- Degenerate `Geo` instantiation (all abstracted real-valued
primitives zero, `PI` stand-in 3).  Used only to exhibit concrete runs
of theorems that hold for every `Geo`. -/
def geoZ : Geo := ⟨fun _ _ => 0, fun _ => 0, fun _ => ⟨0, 0⟩, 3⟩

/-- `Geo` instantiation whose router offset vector agrees with the
real-arithmetic source on axis-aligned edges: `Edge::theta()`
special-cases vertical and horizontal edges to exactly `±π/2`, `0`,
`π`, for which `RADIUS*(cos(θ+π/2), sin(θ+π/2))` is exactly
`(RADIUS, 0)`, `(-RADIUS, 0)`, `(0, RADIUS)` or `(0, -RADIUS)`. -/
def geoAx : Geo :=
  ⟨fun _ _ => 0, fun _ => 0,
   fun e =>
     if e.v1.x = e.v2.x then
       (if e.v1.y < e.v2.y then ⟨-RADIUSQ, 0⟩ else ⟨RADIUSQ, 0⟩)
     else if e.v1.y = e.v2.y then
       (if e.v1.x < e.v2.x then ⟨0, RADIUSQ⟩ else ⟨0, -RADIUSQ⟩)
     else ⟨0, 0⟩,
   3⟩

/-- L-shaped search polygon of the specification's scenario 2. -/
def lShape : Pgon :=
  [⟨0, 0⟩, ⟨60, 0⟩, ⟨60, 30⟩, ⟨30, 30⟩, ⟨30, 60⟩, ⟨0, 60⟩]

/-- Axis-aligned 100 × 100 square (CCW). -/
def sq100 : Pgon := [⟨0, 0⟩, ⟨100, 0⟩, ⟨100, 100⟩, ⟨0, 100⟩]

/-- U-shaped flight boundary (CCW): a 100 × 100 square with a thin
notch cut from the top between x = 48 and x = 52 down to y = 2. -/
def uBound : Pgon :=
  [⟨0, 0⟩, ⟨100, 0⟩, ⟨100, 100⟩, ⟨52, 100⟩, ⟨52, 2⟩, ⟨48, 2⟩,
   ⟨48, 100⟩, ⟨0, 100⟩]

/-- Interior point in the right arm of `uBound`. -/
def uP1 : Coord := ⟨80, 50⟩

/-- Interior point in the left arm of `uBound`. -/
def uP2 : Coord := ⟨20, 50⟩

/-- Offset image of the crossing of the notch's right wall: the wall is
crossed at (52, 50) and the wall's inward normal offset is
`(RADIUS, 0)`, giving (88.6, 50). -/
def uW1 : Coord := ⟨443 / 5, 50⟩

/-- Offset image of the crossing of the notch's left wall: crossed at
(48, 50), offset `(-RADIUS, 0)`, giving (11.4, 50). -/
def uW2 : Coord := ⟨57 / 5, 50⟩

/-- Right column with a collinear vertex at (1,1) on its left wall
(CCW).  Subregion A of the merge-idempotence counterexample. -/
def mgA : Pgon := [⟨1, 0⟩, ⟨2, 0⟩, ⟨2, 2⟩, ⟨1, 2⟩, ⟨1, 1⟩]

/-- Bottom-left unit square (CCW).  Subregion B of the
merge-idempotence counterexample. -/
def mgB : Pgon := [⟨0, 0⟩, ⟨1, 0⟩, ⟨1, 1⟩, ⟨0, 1⟩]

/-- Top-left unit square (CCW).  Subregion C of the merge-idempotence
counterexample. -/
def mgC : Pgon := [⟨0, 1⟩, ⟨1, 1⟩, ⟨1, 2⟩, ⟨0, 2⟩]

/-- Two unit squares far apart (no shared edge), a fixed point of the
merge pass. -/
def farSquares : List Pgon :=
  [[⟨0, 0⟩, ⟨1, 0⟩, ⟨1, 1⟩, ⟨0, 1⟩], [⟨10, 0⟩, ⟨11, 0⟩, ⟨11, 1⟩, ⟨10, 1⟩]]

/-- Flattening of four-field records into the comma-delimited stream the
specification describes. -/
def flat4 : List (ℚ × ℚ × ℚ × ℚ) → List ℚ
  | [] => []
  | r :: t => r.1 :: r.2.1 :: r.2.2.1 :: r.2.2.2 :: flat4 t

/-- Flattening of three-field records (ordinal, latitude, longitude)
into a comma-delimited stream. -/
def flat3 : List (ℚ × ℚ × ℚ) → List ℚ
  | [] => []
  | r :: t => r.1 :: r.2.1 :: r.2.2 :: flat3 t

/-!  Convex traversal (Polygon.cpp `traverse`).

`traverse` copies the width span's edge, extends it to `±INF` along its
stored slope, advances it once by the vector
`OFFSET·(cos(width.theta()), sin(width.theta()))` — `Span::theta()` is
`e.theta() + PI/2` — and then loops: find the first two boundary
intersections of the current sweep position, shift them inward by
`abs(CORRECTION·cos θ)` in x and `abs(CORRECTION·sin θ)` in y (`θ` the
sweep line's `theta()`), emit the pair unless the shift made the
endpoints cross, and advance the sweep line by the same offset vector.
Because `OFFSET = CORRECTION = RADIUS` in Config.h, the per-iteration
displacement is exactly the `Geo.off` value of the width edge
(`RADIUS·(cos(θ+π/2), sin(θ+π/2))`), the same abstracted primitive the
router's offsets use.  `Edge::theta()` depends only on `v2 - v1` (its
two special cases test coordinate equality of the endpoints and the
general case is `atan2(v2.y - v1.y, v2.x - v1.x)`), and translating the
sweep line preserves `v2 - v1`, so the correction component pair is
modelled as a function `corrF : Coord → Coord` of the sweep line's
endpoint difference, abstracting the trig exactly as `Geo` does. -/

/-- Sweep-line extension of `traverse`: a vertical sweep edge gets
`y = ∓INF`; otherwise both endpoints move `INF` outward along the
edge's stored slope (`Edge::slope()` returns `-a`), in the direction
given by the x order of the endpoints. -/
def extendInf (e : Edge) : Edge :=
  if e.v1.x = e.v2.x then
    ⟨⟨e.v1.x, -INFQ⟩, ⟨e.v2.x, INFQ⟩, e.a, e.b, e.c⟩
  else if e.v1.x < e.v2.x then
    ⟨⟨e.v1.x - INFQ, e.v1.y - INFQ * (-e.a)⟩,
     ⟨e.v2.x + INFQ, e.v2.y + INFQ * (-e.a)⟩, e.a, e.b, e.c⟩
  else
    ⟨⟨e.v1.x + INFQ, e.v1.y + INFQ * (-e.a)⟩,
     ⟨e.v2.x - INFQ, e.v2.y - INFQ * (-e.a)⟩, e.a, e.b, e.c⟩

/-- Translation of the sweep line by a vector: the four statements
`sweepLine.v1.x += dx; …` (the `a`, `b`, `c` fields are untouched). -/
def shiftE (e : Edge) (d : Coord) : Edge :=
  ⟨⟨e.v1.x + d.x, e.v1.y + d.y⟩, ⟨e.v2.x + d.x, e.v2.y + d.y⟩, e.a, e.b, e.c⟩

/-- Inward correction of `traverse` on the two found intersections:
each coordinate of each endpoint moves by the corresponding component
of `c` toward the other endpoint, with the branch structure of the
source (`inter2.x > inter1.x` for x, then `inter2.y > inter1.y` for y;
the x shifts do not change the y comparison). -/
def corrPair (c : Coord) (i1 i2 : Coord) : Coord × Coord :=
  let x1 := if i2.x > i1.x then i1.x + c.x else i1.x - c.x
  let x2 := if i2.x > i1.x then i2.x - c.x else i2.x + c.x
  let y1 := if i2.y > i1.y then i1.y + c.y else i1.y - c.y
  let y2 := if i2.y > i1.y then i2.y - c.y else i2.y + c.y
  (⟨x1, y1⟩, ⟨x2, y2⟩)

/-- Validity check and parity emission of one `traverse` iteration:
`beforeCorr` is the raw pair, `afterCorr` the corrected pair; a raw
pair with `|theta()| < EPSILON` is checked for an x-order flip, any
other pair for a sign change of `theta()`; a valid pair is emitted as
`(inter1, inter2)` for even `j` and `(inter2, inter1)` for odd `j`. -/
def travEmit (g : Geo) (c : Coord) (j : Nat) (i1 i2 : Coord) :
    List (Nat × Edge) :=
  let pr := corrPair c i1 i2
  let valid : Bool :=
    if |g.theta (mkEdge i1 i2)| < EPS then
      !((decide (i1.x > i2.x) && decide (pr.1.x < pr.2.x)) ||
        (decide (i1.x < i2.x) && decide (pr.1.x > pr.2.x)))
    else
      !((decide (g.theta (mkEdge i1 i2) > 0) &&
         decide (g.theta (mkEdge pr.1 pr.2) < 0)) ||
        (decide (g.theta (mkEdge i1 i2) < 0) &&
         decide (g.theta (mkEdge pr.1 pr.2) > 0)))
  if valid then
    if j % 2 = 0 then [(j, mkEdge pr.1 pr.2)] else [(j, mkEdge pr.2 pr.1)]
  else []

/-- Do-while loop of `traverse`, fuel-indexed: find the first two
intersections in edge order (the second scan resuming after the first
hit), emit the corrected pair, advance the sweep line by `off` and
repeat while the first intersection existed. -/
def travLoop (g : Geo) (corrF : Coord → Coord) (off : Coord) (p : Pgon) :
    Nat → Edge → Nat → Option (List (Nat × Edge))
  | 0, _, _ => none
  | fuel + 1, sweep, j =>
    match scanInter sweep p 0 with
    | none => some []
    | some (inter1, next) =>
      let emitted : List (Nat × Edge) :=
        match scanInter sweep p next with
        | none => []
        | some (inter2, _) =>
          travEmit g (corrF (sweep.v2.sub sweep.v1)) j inter1 inter2
      match travLoop g corrF off p fuel (shiftE sweep off) (j + 1) with
      | some rest => some (emitted ++ rest)
      | none => none

/-- Iterated sweep advance: the sweep line as it stands at the start of
loop iteration `k`, counted from a given starting position. -/
def sweepShift (off : Coord) : Nat → Edge → Edge
  | 0, e => e
  | k + 1, e => sweepShift off k (shiftE e off)

/-- First two intersections found by one `traverse` iteration, the
second scan resuming at the index after the first hit. -/
def rawPairAt (p : Pgon) (sweep : Edge) : Option (Coord × Coord) :=
  match scanInter sweep p 0 with
  | none => none
  | some (i1, next) =>
    match scanInter sweep p next with
    | none => none
    | some (i2, _) => some (i1, i2)

/-- Nondegeneracy of one sweep position: when the iteration finds two
intersections, they are distinct points.  For a sweep line crossing the
interior of the region the two hits differ; they can coincide only when
the sweep line passes exactly through a polygon vertex. -/
def rawDistinctB (p : Pgon) (sweep : Edge) : Bool :=
  match rawPairAt p sweep with
  | some pr => decide (pr.1 ≠ pr.2)
  | none => true

/-- Width-span edge of the polygon, whose copy becomes the sweep line. -/
def travWidthEdge (g : Geo) (p : Pgon) : Edge := (getWidthSpan g p).2

/-- Per-iteration sweep displacement
`OFFSET·(cos(width.theta()), sin(width.theta()))` of `traverse`: by
`OFFSET = RADIUS` and `Span::theta() = e.theta() + PI/2` this is the
`Geo.off` value of the width edge. -/
def travOff (g : Geo) (p : Pgon) : Coord := g.off (travWidthEdge g p)

/-- Extended sweep line before the initial advance. -/
def travBase (g : Geo) (p : Pgon) : Edge := extendInf (travWidthEdge g p)

/-- Sweep line at the first loop iteration (the source advances once by
the offset vector before entering the loop). -/
def travStart (g : Geo) (p : Pgon) : Edge :=
  shiftE (travBase g p) (travOff g p)

/-- Direction vector of the extended sweep line; every later sweep
position is a translate of the base line, so all host lines share this
direction. -/
def travDir (g : Geo) (p : Pgon) : Coord :=
  (travBase g p).v2.sub (travBase g p).v1

/-- Membership of a point on the line through `b` with direction `u`. -/
def onLineQ (b u q : Coord) : Prop := crossQ (q.sub b) u = 0

instance (b u q : Coord) : Decidable (onLineQ b u q) :=
  inferInstanceAs (Decidable (crossQ (q.sub b) u = 0))

/-- Final clearance check of `traverse`: extend each endpoint of the
last emitted edge by `RADIUS·(cos(width.theta()), sin(width.theta()))`
(again the `Geo.off` value of the width edge, `RADIUS = OFFSET`) and
drop the last edge when either test edge intersects the polygon. -/
def clearanceDrop (g : Geo) (p : Pgon) (w : Edge)
    (ws : List (Nat × Edge)) : List (Nat × Edge) :=
  match ws.getLast? with
  | none => ws
  | some pr =>
    let t1 : Coord := ⟨pr.2.v1.x + (g.off w).x, pr.2.v1.y + (g.off w).y⟩
    if (List.range p.length).any
        (fun i => (intersectionF (mkEdge pr.2.v1 t1) (edgeAt p i)).isSome) then
      ws.dropLast
    else
      let t2 : Coord := ⟨pr.2.v2.x + (g.off w).x, pr.2.v2.y + (g.off w).y⟩
      if (List.range p.length).any
          (fun i => (intersectionF (mkEdge pr.2.v2 t2) (edgeAt p i)).isSome) then
        ws.dropLast
      else ws

/-- traverse of Polygon.cpp, fuel-indexed: the width span's edge is
extended to `±INF`, advanced once by the offset vector, swept by
`travLoop` with iteration counter `j` starting at 0, and the final
clearance check possibly drops the last emitted edge.  Emitted edges
are tagged with their loop iteration index. -/
def traverseF (g : Geo) (corrF : Coord → Coord) (p : Pgon) (fuel : Nat) :
    Option (List (Nat × Edge)) :=
  match travLoop g corrF (travOff g p) p fuel (travStart g p) 0 with
  | some ws => some (clearanceDrop g p (travWidthEdge g p) ws)
  | none => none

/-- Correction components for axis-aligned sweep directions: the exact
values of `(|CORRECTION·cos θ|, |CORRECTION·sin θ|)` for
`θ ∈ {0, π, ±π/2}`, the angles `Edge::theta()` returns exactly (without
`atan2`) for horizontal and vertical edges. -/
def corrAx : Coord → Coord := fun d =>
  if d.x = 0 then ⟨0, CORRECTIONQ⟩
  else if d.y = 0 then ⟨CORRECTIONQ, 0⟩
  else ⟨0, 0⟩

/-!  Theorems. -/

/-- Claim C1 (evidence of the code bug): for the Conversions.cpp
implementation the reference ECEF point maps to the local origin for
every conversion matrix, but for the main.cpp implementation — the one
compiled into the planner — the typo `convMatrix[0][2] + standardCart[Z]`
makes the reference map to `(convMatrix[0][2], 0)`, which is not the
origin whenever that matrix entry is nonzero (the generic case, the
entry being the z-component of the tangent-plane x basis vector). -/
theorem C1_ref_point_image (m : M3) (ref : V3) :
    GPStoCoordConv m ref ref = ⟨0, 0⟩ ∧ GPStoCoordMain m ref ref = ⟨m.m02, 0⟩ := by
  constructor
  · show Coord.mk _ _ = Coord.mk 0 0
    simp only [GPStoCoordConv, Coord.mk.injEq]
    constructor <;> ring
  · show Coord.mk _ _ = Coord.mk m.m02 0
    simp only [GPStoCoordMain, Coord.mk.injEq]
    constructor <;> ring

/-- Claim C5 (evidence of the code bug): the chord-validity test as
coded diverges from the specification's interior-sector test.  With
`θ(edge_c) = -π/2`, `θ(edge_{c-1}) = 0` and chord angle `θ_s = π/2`
(realizable at a concave vertex whose inbound edge points along +x and
outbound edge along -y, with an upward chord), the specification's test
with `θ2 = θ(edge_{c-1}) + π` accepts the chord while the code — whose
guard `theta2 - PI < EPSILON` always holds, so `theta2` is zeroed —
rejects it.  The divergence is independent of the positive values used
for `π` and `ε`; the instance uses the stand-ins `π = 3`,
`ε = DBL_EPSILON`. -/
theorem C5_sector_test_divergence :
    chordValidCode 3 EPS (-3 / 2) 0 (3 / 2) = false ∧
    chordValidSpec 3 (-3 / 2) 0 (3 / 2) = true := by with_unfolding_all decide

/-- Claim C10: the vertex-to-edge distance never divides by zero.  The
vertical branch returns `|e.v1.x - v.x|` with no division (visible in
the source), and for a non-vertical edge the constructor sets `b = 1`,
so the squared denominator `a² + b²` of the non-vertical branch is at
least 1; its square root is therefore at least 1 and in particular
nonzero. -/
theorem C10_distance_denominator (v1 v2 : Coord) (h : v1.x ≠ v2.x) :
    (mkEdge v1 v2).b = 1 ∧ 1 ≤ distDenomSq (mkEdge v1 v2) := by
  constructor
  · simp [mkEdge, if_neg h]
  · simp only [mkEdge, if_neg h, distDenomSq]
    have hm := mul_self_nonneg ((v2.y - v1.y) / (v2.x - v1.x))
    nlinarith

/-- Witness for C10 at the non-vertical edge from (0,0) to (1,1). -/
theorem C10_distance_denominator_witness :
    (⟨0, 0⟩ : Coord).x ≠ (⟨1, 1⟩ : Coord).x ∧
    ((mkEdge ⟨0, 0⟩ ⟨1, 1⟩).b = 1 ∧ 1 ≤ distDenomSq (mkEdge ⟨0, 0⟩ ⟨1, 1⟩)) :=
  ⟨by with_unfolding_all decide,
   C10_distance_denominator ⟨0, 0⟩ ⟨1, 1⟩ (by with_unfolding_all decide)⟩

/-- Claim C9 counterexample: a node carrying the out-of-range start
state 4 does not stop the path writing; the following node's sweeps are
still emitted, so the planner produces search-path output. -/
theorem C9_unknown_state_not_fatal :
    expandPaths [⟨[mkEdge ⟨0, 0⟩ ⟨1, 0⟩], 4⟩, ⟨[mkEdge ⟨2, 0⟩ ⟨3, 0⟩], 0⟩]
      = [⟨2, 0⟩, ⟨3, 0⟩] ∧
    expandPaths [⟨[mkEdge ⟨0, 0⟩ ⟨1, 0⟩], 4⟩, ⟨[mkEdge ⟨2, 0⟩ ⟨3, 0⟩], 0⟩]
      ≠ [] := by with_unfolding_all decide

/-- Claim C9 as amended: a start-state value outside the four
enumerated variants is not fatal; the affected node contributes no
waypoints (after a printed warning) and expansion continues with the
remaining nodes. -/
theorem C9_unknown_state_skipped (nd : NodeR) (ns : List NodeR)
    (h : 4 ≤ nd.startState) :
    expandPaths (nd :: ns) = expandPaths ns := by
  have h0 : ¬nd.startState = 0 := by omega
  have h1 : ¬nd.startState = 1 := by omega
  have h2 : ¬nd.startState = 2 := by omega
  have h3 : ¬nd.startState = 3 := by omega
  simp [expandPaths, expandNode, h0, h1, h2, h3]

/-- Witness for the amended C9 at a node with state 7. -/
theorem C9_unknown_state_skipped_witness :
    4 ≤ (⟨[mkEdge ⟨0, 0⟩ ⟨1, 0⟩], 7⟩ : NodeR).startState ∧
    expandPaths [⟨[mkEdge ⟨0, 0⟩ ⟨1, 0⟩], 7⟩, ⟨[mkEdge ⟨2, 0⟩ ⟨3, 0⟩], 1⟩]
      = expandPaths [⟨[mkEdge ⟨2, 0⟩ ⟨3, 0⟩], 1⟩] :=
  ⟨by decide, C9_unknown_state_skipped _ _ (by decide)⟩

/-- Claim C8 counterexample: on the four-field stream holding the two
records (1, 10, 20, 150) and (2, 11, 21, 150), the search-grid reader
(three fields per iteration) does not produce the records'
latitude-longitude pairs: after the first record it reads the altitude
150 as the next ordinal. -/
theorem C8_search_reader_misaligned :
    searchFields [1, 10, 20, 150, 2, 11, 21, 150]
      ≠ specSearchPairs [1, 10, 20, 150, 2, 11, 21, 150] := by with_unfolding_all decide

/-- Claim C8 as amended: the mission reader consumes exactly four
fields per record and is aligned on four-field streams; the search-grid
and boundary readers consume exactly three fields per iteration and are
aligned on three-field streams (and therefore misaligned on the
four-field format). -/
theorem C8_reader_alignment :
    (∀ rs : List (ℚ × ℚ × ℚ × ℚ), missionFields (flat4 rs) = rs) ∧
    (∀ rs : List (ℚ × ℚ × ℚ), searchFields (flat3 rs)
      = rs.map (fun r => (r.2.1, r.2.2))) := by
  constructor
  · intro rs
    induction rs with
    | nil => rfl
    | cons r t ih => simp only [flat4, missionFields, ih]
  · intro rs
    induction rs with
    | nil => rfl
    | cons r t ih => simp only [flat3, searchFields, ih, List.map_cons]

/-- Claim C4 counterexample: on the 100 × 100 square the first two
sweep segments emitted by naiveTraverse sit on horizontal host lines
whose separation is OFFSET/2, not OFFSET. -/
theorem C4_naive_spacing_counterexample :
    ((naiveTraverseF sq100 10).map (fun ws =>
        (ws.getD 1 default).2.v1.y - (ws.getD 0 default).2.v1.y))
      = some (OFFSETQ / 2) ∧ (OFFSETQ / 2 : ℚ) ≠ OFFSETQ := by with_unfolding_all decide

/-- Claim C7 counterexample: on the three subregions `mgA`, `mgB`,
`mgC`, the first merge pass joins B with C only, leaving A adjacent to
the merged column with a concave-free union; a second pass therefore
merges again and the result changes. -/
theorem C7_merge_not_idempotent :
    mergeSubF (mergeSubF [mgA, mgB, mgC]) ≠ mergeSubF [mgA, mgB, mgC] := by
  with_unfolding_all decide

/-- The inner-loop scan performs no change when the current polygon
merges with none of the scanned elements. -/
theorem scanPart_id (a : Pgon) (L : List Pgon)
    (h : ∀ b ∈ L, tryMerge a b = none) : scanPart a L = (a, L) := by
  induction L with
  | nil => rfl
  | cons b t ih =>
    have hb : tryMerge a b = none := h b (List.mem_cons_self _ _)
    simp only [scanPart, hb, ih (fun x hx => h x (List.mem_cons_of_mem _ hx))]

/-- The outer walk of the merge pass is the identity on a list none of
whose cross pairs can merge. -/
theorem mergeOuter_fix (fuel : Nat) :
    ∀ pre rest : List Pgon,
      (∀ x ∈ rest, ∀ b ∈ pre, tryMerge x b = none) →
      rest.Pairwise (fun A B => tryMerge A B = none ∧ tryMerge B A = none) →
      mergeOuter fuel pre rest = pre ++ rest := by
  induction fuel with
  | zero => intro pre rest _ _; rfl
  | succ fuel ih =>
    intro pre rest hcross hpw
    match rest with
    | [] => simp [mergeOuter]
    | a :: post =>
      rw [List.pairwise_cons] at hpw
      have h1 : scanPart a pre = (a, pre) :=
        scanPart_id a pre (hcross a (List.mem_cons_self _ _))
      have h2 : scanPart a post = (a, post) :=
        scanPart_id a post (fun b hb => (hpw.1 b hb).1)
      have hcross2 : ∀ x ∈ post, ∀ b ∈ pre ++ [a], tryMerge x b = none := by
        intro x hx b hb
        rcases List.mem_append.1 hb with hb | hb
        · exact hcross x (List.mem_cons_of_mem _ hx) b hb
        · rcases List.mem_singleton.1 hb with rfl
          exact (hpw.1 x hx).2
      calc mergeOuter (fuel + 1) pre (a :: post)
          = mergeOuter fuel (pre ++ [a]) post := by
            simp only [mergeOuter, h1, h2]
        _ = (pre ++ [a]) ++ post := ih _ _ hcross2 hpw.2
        _ = pre ++ a :: post := by simp

/-- Claim C7 as amended: the merge pass is the identity — and hence
idempotent — exactly on lists in which no two distinct subregions are
adjacent with a concave-vertex-free merged union; in general a second
pass can merge further (see the counterexample), so the pass is not
idempotent. -/
theorem C7_merge_fixpoint (l : List Pgon)
    (h : l.Pairwise (fun A B => tryMerge A B = none ∧ tryMerge B A = none)) :
    mergeSubF l = l := by
  simpa using mergeOuter_fix l.length [] l (by simp) h

/-- Witness for the amended C7 on two non-adjacent unit squares. -/
theorem C7_merge_fixpoint_witness :
    farSquares.Pairwise (fun A B => tryMerge A B = none ∧ tryMerge B A = none) ∧
    mergeSubF farSquares = farSquares :=
  ⟨by with_unfolding_all decide,
   C7_merge_fixpoint farSquares (by with_unfolding_all decide)⟩

/-- Every polygon emitted by the decomposition has no concave vertex:
the only place `decompose` adds to the output list is the branch in
which the concave-vertex list is empty. -/
theorem decomposeF_concave_free (g : Geo) :
    ∀ (fuel : Nat) (p : Pgon) (l : List Pgon),
      decomposeF g fuel p = some l →
      ∀ q ∈ l, (List.range q.length).filter (fun i => isConcaveB q i) = [] := by
  intro fuel
  induction fuel with
  | zero => intro p l h; simp [decomposeF] at h
  | succ fuel ih =>
    intro p l h
    simp only [decomposeF] at h
    by_cases hcav : (List.range p.length).filter (fun i => isConcaveB p i) = []
    · rw [if_pos hcav] at h
      cases h
      intro q hq
      rcases List.mem_singleton.1 hq with rfl
      exact hcav
    · rw [if_neg hcav] at h
      cases hfs : findSplit g p ((List.range p.length).filter (fun i => isConcaveB p i)) with
      | none => rw [hfs] at h; cases h
      | some ab =>
        obtain ⟨a, b⟩ := ab
        rw [hfs] at h
        simp only at h
        cases h1 : decomposeF g fuel (splitF p a b).1 with
        | none => rw [h1] at h; cases h
        | some l1 =>
          cases h2 : decomposeF g fuel (splitF p a b).2 with
          | none => rw [h1, h2] at h; cases h
          | some l2 =>
            rw [h1, h2] at h
            simp only at h
            cases h
            intro q hq
            rcases List.mem_append.1 hq with hq | hq
            · exact ih _ _ h1 q hq
            · exact ih _ _ h2 q hq

/-- A successful merge attempt produces a polygon with no concave
vertex (the `numConcave == 0` gate). -/
theorem tryMerge_concave_free (a b m : Pgon) (h : tryMerge a b = some m) :
    (List.range m.length).filter (fun i => isConcaveB m i) = [] := by
  unfold tryMerge at h
  cases hadj : adjacentF a b with
  | none => rw [hadj] at h; cases h
  | some ij =>
    obtain ⟨i, j⟩ := ij
    rw [hadj] at h
    simp only at h
    by_cases hc : concaveCount (mergeF a b i j) = 0
    · rw [if_pos hc] at h
      cases h
      exact List.length_eq_zero.1 hc
    · rw [if_neg hc] at h
      cases h

/-- The inner scan of the merge pass preserves any property that holds
of all inputs and of every successfully merged polygon. -/
theorem scanPart_preserve (P : Pgon → Prop)
    (hP : ∀ a b m, tryMerge a b = some m → P m) :
    ∀ (L : List Pgon) (a : Pgon), P a → (∀ b ∈ L, P b) →
      P (scanPart a L).1 ∧ ∀ q ∈ (scanPart a L).2, P q := by
  intro L
  induction L with
  | nil => intro a ha _; exact ⟨ha, by simp [scanPart]⟩
  | cons b t ih =>
    intro a ha hL
    cases htm : tryMerge a b with
    | some m =>
      simp only [scanPart, htm]
      exact ih m (hP _ _ _ htm) (fun x hx => hL x (List.mem_cons_of_mem _ hx))
    | none =>
      simp only [scanPart, htm]
      have hr := ih a ha (fun x hx => hL x (List.mem_cons_of_mem _ hx))
      refine ⟨hr.1, ?_⟩
      intro q hq
      rcases List.mem_cons.1 hq with rfl | hq
      · exact hL q (List.mem_cons_self _ _)
      · exact hr.2 q hq

/-- The outer walk of the merge pass preserves any property that holds
of all inputs and of every successfully merged polygon. -/
theorem mergeOuter_preserve (P : Pgon → Prop)
    (hP : ∀ a b m, tryMerge a b = some m → P m) :
    ∀ (fuel : Nat) (pre rest : List Pgon),
      (∀ q ∈ pre, P q) → (∀ q ∈ rest, P q) →
      ∀ q ∈ mergeOuter fuel pre rest, P q := by
  intro fuel
  induction fuel with
  | zero =>
    intro pre rest hpre hrest q hq
    rcases List.mem_append.1 hq with hq | hq
    · exact hpre q hq
    · exact hrest q hq
  | succ fuel ih =>
    intro pre rest hpre hrest
    match rest with
    | [] => simpa [mergeOuter] using hpre
    | a :: post =>
      have ha : P a := hrest a (List.mem_cons_self _ _)
      have hpost : ∀ q ∈ post, P q :=
        fun q hq => hrest q (List.mem_cons_of_mem _ hq)
      have s1 := scanPart_preserve P hP pre a ha hpre
      have s2 := scanPart_preserve P hP post (scanPart a pre).1 s1.1 hpost
      intro q hq
      simp only [mergeOuter] at hq
      refine ih _ _ ?_ s2.2 q hq
      intro x hx
      rcases List.mem_append.1 hx with hx | hx
      · exact s1.2 x hx
      · rcases List.mem_singleton.1 hx with rfl
        exact s2.1

/-- Claim C2: every polygon produced by `decompose` followed by
`mergeSubregions` has zero concave vertices; `decompose` emits only
polygons whose concave-vertex list is empty, and the merge pass only
substitutes polygons that pass its `numConcave == 0` gate. -/
theorem C2_decompose_merge_convex (g : Geo) (fuel : Nat) (p : Pgon)
    (l : List Pgon) (_hp : 3 ≤ p.length)
    (h : decomposeF g fuel p = some l) :
    ∀ q ∈ mergeSubF l, ∀ i < q.length, isConcaveB q i = false := by
  have hl := decomposeF_concave_free g fuel p l h
  have hm : ∀ q ∈ mergeSubF l,
      (List.range q.length).filter (fun i => isConcaveB q i) = [] := by
    refine mergeOuter_preserve _ ?_ l.length [] l (by simp) hl
    intro a b m hab
    exact tryMerge_concave_free a b m hab
  intro q hq i hi
  have hfi := List.filter_eq_nil_iff.1 (hm q hq) i (List.mem_range.2 hi)
  simpa using hfi

/-- Witness for C2 on the L-shaped polygon of the specification's
scenario 2, with the degenerate `Geo` instantiation. -/
theorem C2_decompose_merge_convex_witness :
    3 ≤ lShape.length ∧
    decomposeF geoZ 10 lShape = some ((decomposeF geoZ 10 lShape).getD []) ∧
    ∀ q ∈ mergeSubF ((decomposeF geoZ 10 lShape).getD []),
      ∀ i < q.length, isConcaveB q i = false :=
  ⟨by decide, by with_unfolding_all decide,
   C2_decompose_merge_convex geoZ 10 lShape _ (by decide)
     (by with_unfolding_all decide)⟩

/-- The endpoints of a constructed edge are its two arguments. -/
theorem mkEdge_v1 (u v : Coord) : (mkEdge u v).v1 = u := by
  unfold mkEdge; split <;> rfl

/-- The endpoints of a constructed edge are its two arguments. -/
theorem mkEdge_v2 (u v : Coord) : (mkEdge u v).v2 = v := by
  unfold mkEdge; split <;> rfl

/-- An intersection found with a horizontal first segment lies on that
segment's horizontal line: the reported point is `p1 + t·r` and `r` has
zero y component. -/
theorem intersectionF_fst_y (e1 e2 : Edge) (c : Coord)
    (hy : e1.v1.y = e1.v2.y) (h : intersectionF e1 e2 = some c) :
    c.y = e1.v1.y := by
  simp only [intersectionF] at h
  split at h
  · cases h
  · split at h
    · cases h
    · split at h
      · cases h
        simp only [Coord.add, Coord.smul]
        rw [← hy]
        ring
      · cases h

/-- Unfolding equation of the intersection scan. -/
theorem scanInterAux_succ (e : Edge) (p : Pgon) (rem i : Nat) :
    scanInterAux e p (rem + 1) i =
    (match intersectionF e (edgeAt p i) with
     | some c => some (c, i + 1)
     | none => scanInterAux e p rem (i + 1)) := rfl

/-- The intersection scan on a horizontal sweep line only reports
points on the sweep line's y coordinate. -/
theorem scanInterAux_y (sweep : Edge) (p : Pgon)
    (hy : sweep.v1.y = sweep.v2.y) :
    ∀ (rem i : Nat) (c : Coord) (nx : Nat),
      scanInterAux sweep p rem i = some (c, nx) → c.y = sweep.v1.y := by
  intro rem
  induction rem with
  | zero => intro i c nx h; cases h
  | succ rem ih =>
    intro i c nx h
    rw [scanInterAux_succ] at h
    cases hint : intersectionF sweep (edgeAt p i) with
    | some c0 =>
      rw [hint] at h
      cases h
      exact intersectionF_fst_y sweep (edgeAt p i) _ hy hint
    | none =>
      rw [hint] at h
      exact ih (i + 1) c nx h

/-- The intersection scan on a horizontal sweep line only reports
points on the sweep line's y coordinate. -/
theorem scanInter_y (sweep : Edge) (p : Pgon) (i : Nat) (c : Coord) (nx : Nat)
    (hy : sweep.v1.y = sweep.v2.y) (h : scanInter sweep p i = some (c, nx)) :
    c.y = sweep.v1.y :=
  scanInterAux_y sweep p hy _ i c nx h

/-- Everything emitted by one naive iteration carries that iteration's
index and has both endpoints at the intersections' common y value: the
correction only shifts x coordinates. -/
theorem naiveEmit_y (j : Nat) (i1 i2 : Coord) (yv : ℚ)
    (h1 : i1.y = yv) (h2 : i2.y = yv) :
    ∀ q ∈ naiveEmit j i1 i2, q.1 = j ∧ q.2.v1.y = yv ∧ q.2.v2.y = yv := by
  intro q hq
  simp only [naiveEmit] at hq
  repeat' split at hq
  all_goals first
    | (rcases List.mem_singleton.1 hq with rfl
       exact ⟨rfl, by simp [mkEdge_v1, h1, h2], by simp [mkEdge_v2, h1, h2]⟩)
    | cases hq

/-- One naive iteration emits nothing or exactly one tagged edge. -/
theorem naiveEmit_shape (j : Nat) (i1 i2 : Coord) :
    naiveEmit j i1 i2 = [] ∨ ∃ e, naiveEmit j i1 i2 = [(j, e)] := by
  simp only [naiveEmit]
  repeat' split
  all_goals first
    | exact Or.inl rfl
    | exact Or.inr ⟨_, rfl⟩

/-- Unfolding equation of the naive traversal loop. -/
theorem naiveLoop_succ (p : Pgon) (fuel : Nat) (sweep : Edge) (j : Nat) :
    naiveLoop p (fuel + 1) sweep j =
    (match scanInter sweep p 0 with
     | none => some []
     | some (inter1, next) =>
       let emitted : List (Nat × Edge) :=
         match scanInter sweep p next with
         | none => []
         | some (inter2, _) => naiveEmit j inter1 inter2
       match naiveLoop p fuel (shiftY sweep (OFFSETQ / 2)) (j + 1) with
       | some rest => some (emitted ++ rest)
       | none => none) := rfl

/-- Loop invariant of `naiveLoop`: on a horizontal sweep line starting
iteration `j`, every emitted tagged edge `(k, e)` has `j ≤ k`, both of
`e`'s endpoints lie at `sweep.y + (k - j)·OFFSET/2`, and the tags are
strictly increasing along the output. -/
theorem naiveLoop_members (p : Pgon) :
    ∀ (fuel : Nat) (sweep : Edge) (j : Nat) (ws : List (Nat × Edge)),
      sweep.v1.y = sweep.v2.y →
      naiveLoop p fuel sweep j = some ws →
      (∀ q ∈ ws, j ≤ q.1 ∧
        q.2.v1.y = sweep.v1.y + ((q.1 - j : ℕ) : ℚ) * (OFFSETQ / 2) ∧
        q.2.v2.y = sweep.v1.y + ((q.1 - j : ℕ) : ℚ) * (OFFSETQ / 2)) ∧
      ws.Chain' (fun a b => a.1 < b.1) := by
  intro fuel
  induction fuel with
  | zero => intro sweep j ws _ h; cases h
  | succ fuel ih =>
    intro sweep j ws hy h
    have hy2 : (shiftY sweep (OFFSETQ / 2)).v1.y = (shiftY sweep (OFFSETQ / 2)).v2.y := by
      simp [shiftY, hy]
    have hys : (shiftY sweep (OFFSETQ / 2)).v1.y = sweep.v1.y + OFFSETQ / 2 := by
      simp [shiftY]
    rw [naiveLoop_succ] at h
    cases hs1 : scanInter sweep p 0 with
    | none =>
      rw [hs1] at h
      cases h
      exact ⟨by simp, by simp⟩
    | some pr1 =>
      obtain ⟨inter1, next⟩ := pr1
      rw [hs1] at h
      simp only at h
      cases hrec : naiveLoop p fuel (shiftY sweep (OFFSETQ / 2)) (j + 1) with
      | none => rw [hrec] at h; cases h
      | some rest =>
        rw [hrec] at h
        have hrest := ih (shiftY sweep (OFFSETQ / 2)) (j + 1) rest hy2 hrec
        have hrest1 : ∀ q ∈ rest, j ≤ q.1 ∧
            q.2.v1.y = sweep.v1.y + ((q.1 - j : ℕ) : ℚ) * (OFFSETQ / 2) ∧
            q.2.v2.y = sweep.v1.y + ((q.1 - j : ℕ) : ℚ) * (OFFSETQ / 2) := by
          intro q hq
          obtain ⟨hk, hv1, hv2⟩ := hrest.1 q hq
          have hsub : (q.1 - j : ℕ) = (q.1 - (j + 1) : ℕ) + 1 := by omega
          have hcast : ((q.1 - j : ℕ) : ℚ) = ((q.1 - (j + 1) : ℕ) : ℚ) + 1 := by
            rw [hsub]; push_cast; ring
          refine ⟨by omega, ?_, ?_⟩
          · rw [hv1, hys, hcast]; ring
          · rw [hv2, hys, hcast]; ring
        cases hs2 : scanInter sweep p next with
        | none =>
          rw [hs2] at h
          simp only at h
          cases h
          refine ⟨?_, ?_⟩
          · intro q hq
            exact hrest1 q (by simpa using hq)
          · simpa using hrest.2
        | some pr2 =>
          obtain ⟨inter2, nx2⟩ := pr2
          rw [hs2] at h
          simp only at h
          cases h
          have hi1 : inter1.y = sweep.v1.y := scanInter_y sweep p 0 inter1 next hy hs1
          have hi2 : inter2.y = sweep.v1.y := scanInter_y sweep p next inter2 nx2 hy hs2
          refine ⟨?_, ?_⟩
          · intro q hq
            rcases List.mem_append.1 hq with hq | hq
            · obtain ⟨hj, hv1, hv2⟩ := naiveEmit_y j inter1 inter2 sweep.v1.y hi1 hi2 q hq
              refine ⟨by omega, ?_, ?_⟩ <;> simp [hv1, hv2, hj]
            · exact hrest1 q hq
          · rcases naiveEmit_shape j inter1 inter2 with he | ⟨e, he⟩
            · rw [he]
              simpa using hrest.2
            · rw [he]
              rw [List.cons_append, List.nil_append, List.chain'_cons']
              refine ⟨?_, hrest.2⟩
              intro y hy'
              have hmem := List.mem_of_mem_head? hy'
              have hk := (hrest.1 y hmem).1
              simp only
              omega

/-- A chain remains a chain after dropping its last element. -/
theorem chainQ_dropLast {α : Type} (R : α → α → Prop) :
    ∀ s : List α, s.Chain' R → s.dropLast.Chain' R := by
  intro s
  induction s with
  | nil => intro _; simp
  | cons z t ih =>
    intro h
    cases t with
    | nil => simp
    | cons z2 t2 =>
      rw [List.chain'_cons] at h
      rw [List.dropLast_cons₂, List.chain'_cons']
      refine ⟨?_, ih h.2⟩
      intro w hw
      cases t2 with
      | nil => simp at hw
      | cons z3 t3 =>
        rw [List.dropLast_cons₂] at hw
        simp only [List.head?_cons, Option.mem_def, Option.some.injEq] at hw
        rw [← hw]
        exact h.1

/-- The final link of a chain relates the second-to-last element to the
last one. -/
theorem chainQ_last_step (R : Coord → Coord → Prop) :
    ∀ (s : List Coord) (x y : Coord),
      s.Chain' R → s.getLast? = some y → x ∈ s.dropLast.getLast? → R x y := by
  intro s
  induction s with
  | nil => intro x y _ _ hx; simp at hx
  | cons z t ih =>
    intro x y hc hl hx
    cases t with
    | nil => simp at hx
    | cons z2 t2 =>
      rw [List.chain'_cons] at hc
      cases t2 with
      | nil =>
        simp only [List.getLast?_cons_cons, List.getLast?_singleton,
          Option.some.injEq] at hl
        simp only [List.dropLast_cons₂, List.dropLast_single,
          List.getLast?_singleton, Option.mem_def, Option.some.injEq] at hx
        rw [← hx, ← hl]
        exact hc.1
      | cons z3 t3 =>
        rw [List.getLast?_cons_cons] at hl
        rw [List.dropLast_cons₂, List.dropLast_cons₂,
          List.getLast?_cons_cons] at hx
        refine ih x y hc.2 hl ?_
        rw [List.dropLast_cons₂]
        exact hx

/-- Two chains sharing an endpoint glue into a chain along
`dropLast ++`. -/
theorem chainQ_glue (R : Coord → Coord → Prop) (s r : List Coord) (y : Coord)
    (hs : s.Chain' R) (hr : r.Chain' R)
    (hl : s.getLast? = some y) (hh : r.head? = some y) :
    (s.dropLast ++ r).Chain' R := by
  apply List.Chain'.append (chainQ_dropLast R s hs) hr
  intro x hx w hw
  rw [hh] at hw
  simp only [Option.mem_def, Option.some.injEq] at hw
  rw [← hw]
  exact chainQ_last_step R s x y hs hl hx

/-- If the per-pair expansion always returns a clean chain from its
first to its second argument, then expanding every adjacent pair of a
chain yields a clean chain with the same first and last points. -/
theorem unfoldChain_route (B : Pgon) (f : Coord → Coord → Option (List Coord))
    (hf : ∀ x y l, f x y = some l →
      l.head? = some x ∧ l.getLast? = some y ∧ 2 ≤ l.length ∧
      l.Chain' (cleanSegP B)) :
    ∀ (pts l : List Coord), pts ≠ [] → unfoldChain f pts = some l →
      l.head? = pts.head? ∧ l.getLast? = pts.getLast? ∧
      pts.length ≤ l.length ∧ l.Chain' (cleanSegP B) := by
  intro pts
  induction pts with
  | nil => intro l h; exact absurd rfl h
  | cons x t ih =>
    intro l _ h
    cases t with
    | nil =>
      cases h
      exact ⟨rfl, rfl, le_refl _, by simp⟩
    | cons y rest =>
      simp only [unfoldChain] at h
      cases hfx : f x y with
      | none => rw [hfx] at h; cases h
      | some s =>
        rw [hfx] at h
        cases hch : unfoldChain f (y :: rest) with
        | none => rw [hch] at h; cases h
        | some r =>
          rw [hch] at h
          simp only at h
          cases h
          obtain ⟨hsh, hsl, hslen, hsc⟩ := hf x y s hfx
          obtain ⟨hrh, hrl, hrlen, hrc⟩ := ih r (by simp) hch
          have hrne : r ≠ [] := by
            intro hre
            rw [hre] at hrh
            cases hrh
          have hdh : s.dropLast.head? = some x := by
            cases s with
            | nil => cases hsh
            | cons a t1 =>
              cases t1 with
              | nil => simp at hslen
              | cons a2 t2 =>
                simp only [List.head?_cons, Option.some.injEq] at hsh
                simp [List.dropLast_cons₂, hsh]
          have hrne : r ≠ [] := by
            intro hre
            rw [hre] at hrh
            cases hrh
          refine ⟨?_, ?_, ?_, ?_⟩
          · rw [List.head?_append, hdh]
            rfl
          · rw [List.getLast?_append_of_ne_nil _ hrne, hrl,
              List.getLast?_cons_cons]
          · have h1 : (s.dropLast ++ r).length = s.dropLast.length + r.length :=
              List.length_append _ _
            have h2 : s.dropLast.length = s.length - 1 := List.length_dropLast s
            have h3 : (y :: rest).length ≤ r.length := hrlen
            simp only [List.length_cons] at h3 ⊢
            omega
          · exact chainQ_glue (cleanSegP B) s r y hsc hrc hsl
              (by simpa using hrh)

/-- The collected intersection list is empty exactly when the segment
is clean under the program's intersection test. -/
theorem rawInters_eq_nil (B : Pgon) (a b : Coord) :
    rawInters B a b = [] ↔ cleanSegP B a b := by
  unfold rawInters cleanSegP
  rw [List.filterMap_eq_nil_iff]
  constructor
  · intro h i hi
    have := h i (List.mem_range.2 hi)
    simpa using this
  · intro h i hi
    rw [List.mem_range] at hi
    simp [h i hi]

/-- Unfolding equation of `unfoldPair`. -/
theorem unfoldPair_succ (g : Geo) (B : Pgon) (n : Nat) (a b : Coord) :
    unfoldPair g B (n + 1) a b =
    (if rawInters B a b = [] then some [a, b]
     else unfoldChain (unfoldPair g B n) (a :: crossPts g B a b ++ [b])) := rfl

/-- Every terminating run of the router expansion produces a chain of
intersection-free segments from the first to the second point. -/
theorem unfoldPair_route (g : Geo) (B : Pgon) :
    ∀ (n : Nat) (a b : Coord) (l : List Coord),
      unfoldPair g B n a b = some l →
      l.head? = some a ∧ l.getLast? = some b ∧ 2 ≤ l.length ∧
      l.Chain' (cleanSegP B) := by
  intro n
  induction n with
  | zero => intro a b l h; cases h
  | succ n ih =>
    intro a b l h
    rw [unfoldPair_succ] at h
    by_cases hraw : rawInters B a b = []
    · rw [if_pos hraw] at h
      cases h
      refine ⟨rfl, rfl, by simp, ?_⟩
      rw [List.chain'_cons']
      refine ⟨?_, by simp⟩
      intro w hw
      simp only [List.head?_cons, Option.mem_def, Option.some.injEq] at hw
      rw [← hw]
      exact (rawInters_eq_nil B a b).1 hraw
    · rw [if_neg hraw] at h
      have hch := unfoldChain_route B (unfoldPair g B n) ih
        (a :: crossPts g B a b ++ [b]) l (by simp) h
      obtain ⟨hh, hl, hlen, hc⟩ := hch
      refine ⟨by simpa using hh, ?_, ?_, hc⟩
      · exact hl.trans (List.getLast?_concat (a :: crossPts g B a b))
      · have : (a :: crossPts g B a b ++ [b]).length =
            (crossPts g B a b).length + 2 := by simp
        omega

/-- Claim C3: on every terminating run of pathTo, the full polyline
from `p1` through the returned waypoints to `p2` contains no
consecutive pair whose segment intersects any edge of the boundary, as
decided by the program's own segment-intersection test: when a segment
still had intersections, `pathToHelp` expanded it and recursed, so a
final chain consists exclusively of intersection-free pairs. -/
theorem C3_pathTo_boundary_safe (g : Geo) (B : Pgon) (n : Nat)
    (p1 p2 : Coord) (l : List Coord)
    (h : unfoldPair g B n p1 p2 = some l) :
    l.head? = some p1 ∧ l.getLast? = some p2 ∧
    l.Chain' (fun x y => cleanSegP B x y) := by
  obtain ⟨hh, hl, _, hc⟩ := unfoldPair_route g B n p1 p2 l h
  exact ⟨hh, hl, hc⟩

/-- Witness for C3 inside the 100 × 100 square boundary. -/
theorem C3_pathTo_boundary_safe_witness :
    unfoldPair geoAx sq100 1 ⟨50, 50⟩ ⟨50, 60⟩
      = some ((unfoldPair geoAx sq100 1 ⟨50, 50⟩ ⟨50, 60⟩).getD []) ∧
    (((unfoldPair geoAx sq100 1 ⟨50, 50⟩ ⟨50, 60⟩).getD []).head? = some ⟨50, 50⟩ ∧
     ((unfoldPair geoAx sq100 1 ⟨50, 50⟩ ⟨50, 60⟩).getD []).getLast? = some ⟨50, 60⟩ ∧
     ((unfoldPair geoAx sq100 1 ⟨50, 50⟩ ⟨50, 60⟩).getD []).Chain'
       (fun x y => cleanSegP sq100 x y)) :=
  ⟨by with_unfolding_all decide,
   C3_pathTo_boundary_safe geoAx sq100 1 ⟨50, 50⟩ ⟨50, 60⟩ _
     (by with_unfolding_all decide)⟩

/-- Unfolding equation of `unfoldChain`. -/
theorem unfoldChain_cons₂ (f : Coord → Coord → Option (List Coord))
    (x y : Coord) (rest : List Coord) :
    unfoldChain f (x :: y :: rest) =
    (match f x y, unfoldChain f (y :: rest) with
     | some s, some r => some (s.dropLast ++ r)
     | _, _ => none) := rfl

set_option maxRecDepth 4000 in
/-- The pair of offset waypoints generated inside the U-shaped boundary
reproduces itself: its two boundary crossings (52, 50) and (48, 50)
offset by `(RADIUS, 0)` and `(-RADIUS, 0)` back to the pair's own
endpoints, so the expansion never terminates at any fuel. -/
theorem uW_pair_diverges :
    ∀ m : Nat, unfoldPair geoAx uBound m uW1 uW2 = none := by
  intro m
  induction m with
  | zero => rfl
  | succ m ih =>
    rw [unfoldPair_succ,
      if_neg (by with_unfolding_all decide : ¬rawInters uBound uW1 uW2 = []),
      (by with_unfolding_all decide :
        crossPts geoAx uBound uW1 uW2 = [uW1, uW2])]
    rw [show uW1 :: [uW1, uW2] ++ [uW2] = uW1 :: uW1 :: uW2 :: [uW2] from rfl]
    rw [unfoldChain_cons₂]
    cases m with
    | zero => rfl
    | succ k =>
      rw [show unfoldPair geoAx uBound (k + 1) uW1 uW1 = some [uW1, uW1] from by
        rw [unfoldPair_succ,
          if_pos (by with_unfolding_all decide : rawInters uBound uW1 uW1 = [])]]
      rw [unfoldChain_cons₂, ih]

set_option maxRecDepth 4000 in
/-- Claim C6 counterexample: for the interior points (80, 50) and
(20, 50) of the U-shaped boundary, `pathToHelp` does not terminate at
any recursion depth — the inserted offset waypoints land outside the
region between the notch walls and regenerate themselves, so the
number of remaining intersections never decreases. -/
theorem C6_pathTo_not_terminating :
    ¬ pathToTerminates geoAx uBound uP1 uP2 := by
  rintro ⟨n, hn⟩
  cases n with
  | zero => cases hn
  | succ m =>
    rw [unfoldPair_succ,
      if_neg (by with_unfolding_all decide : ¬rawInters uBound uP1 uP2 = []),
      (by with_unfolding_all decide :
        crossPts geoAx uBound uP1 uP2 = [uW1, uW2])] at hn
    rw [show uP1 :: [uW1, uW2] ++ [uP2] = uP1 :: uW1 :: uW2 :: [uP2] from rfl] at hn
    rw [unfoldChain_cons₂] at hn
    cases m with
    | zero => cases hn
    | succ k =>
      rw [show unfoldPair geoAx uBound (k + 1) uP1 uW1 = some [uP1, uW1] from by
        rw [unfoldPair_succ,
          if_pos (by with_unfolding_all decide : rawInters uBound uP1 uW1 = [])]] at hn
      rw [unfoldChain_cons₂, uW_pair_diverges (k + 1)] at hn
      cases hn

/-- Claim C6 as amended: the recursion terminates immediately (with the
empty waypoint list) whenever the straight segment has no boundary
intersections under the program's test; in general termination fails
even for interior points, because inserted offset waypoints need not
lie inside the boundary (see the counterexample). -/
theorem C6_no_intersection_terminates (g : Geo) (B : Pgon) (a b : Coord)
    (n : Nat) (h : cleanSegP B a b) :
    unfoldPair g B (n + 1) a b = some [a, b] := by
  rw [unfoldPair_succ, if_pos ((rawInters_eq_nil B a b).2 h)]

/-- Witness for the amended C6 on an interior segment of the square. -/
theorem C6_no_intersection_terminates_witness :
    cleanSegP sq100 ⟨30, 30⟩ ⟨40, 40⟩ ∧
    unfoldPair geoAx sq100 1 ⟨30, 30⟩ ⟨40, 40⟩ = some [⟨30, 30⟩, ⟨40, 40⟩] :=
  ⟨by with_unfolding_all decide,
   C6_no_intersection_terminates geoAx sq100 ⟨30, 30⟩ ⟨40, 40⟩ 0
     (by with_unfolding_all decide)⟩

/-- A list member survives dropping the last element. -/
theorem mem_of_mem_dropLastQ {α : Type} :
    ∀ (l : List α) (a : α), a ∈ l.dropLast → a ∈ l := by
  intro l
  induction l with
  | nil => simp
  | cons x t ih =>
    intro a ha
    cases t with
    | nil => simp at ha
    | cons y t2 =>
      rw [List.dropLast_cons₂] at ha
      rcases List.mem_cons.1 ha with rfl | ha
      · exact List.mem_cons_self _ _
      · exact List.mem_cons_of_mem _ (ih a ha)

/-- Componentwise equality of coordinates. -/
theorem coord_eq (a b : Coord) (hx : a.x = b.x) (hy : a.y = b.y) :
    a = b := by
  cases a; cases b; simp_all

/-- A point reported by the program's intersection test lies on the
line of the first edge (it is returned as `p1 + t·r`). -/
theorem intersectionF_online (e1 e2 : Edge) (c : Coord)
    (h : intersectionF e1 e2 = some c) :
    crossQ (c.sub e1.v1) (e1.v2.sub e1.v1) = 0 := by
  simp only [intersectionF] at h
  split at h
  · cases h
  · split at h
    · cases h
    · split at h
      · cases h
        simp only [Coord.add, Coord.smul, Coord.sub, crossQ]
        ring
      · cases h

/-- The intersection scan only reports points on the sweep line. -/
theorem scanInterAux_online (sweep : Edge) (p : Pgon) :
    ∀ (rem i : Nat) (c : Coord) (nx : Nat),
      scanInterAux sweep p rem i = some (c, nx) →
      crossQ (c.sub sweep.v1) (sweep.v2.sub sweep.v1) = 0 := by
  intro rem
  induction rem with
  | zero => intro i c nx h; cases h
  | succ rem ih =>
    intro i c nx h
    rw [scanInterAux_succ] at h
    cases hint : intersectionF sweep (edgeAt p i) with
    | some c0 =>
      rw [hint] at h
      cases h
      exact intersectionF_online sweep (edgeAt p i) _ hint
    | none =>
      rw [hint] at h
      exact ih (i + 1) c nx h

/-- Wrapper of `scanInterAux_online` at the loop entry. -/
theorem scanInter_online (sweep : Edge) (p : Pgon) (i : Nat) (c : Coord)
    (nx : Nat) (h : scanInter sweep p i = some (c, nx)) :
    crossQ (c.sub sweep.v1) (sweep.v2.sub sweep.v1) = 0 :=
  scanInterAux_online sweep p _ i c nx h

/-- Core invariant of the inward correction: when the two raw
intersections are distinct points of the host line and the correction
component pair is proportional to the componentwise absolute value of
the line direction (it is `|CORRECTION·cos θ|, |CORRECTION·sin θ|` of
the line's angle `θ`), both corrected points remain on the host line. -/
theorem corrPair_online (b u c i1 i2 : Coord)
    (hc : c.x * |u.y| = c.y * |u.x|)
    (h1 : crossQ (i1.sub b) u = 0) (h2 : crossQ (i2.sub b) u = 0)
    (hne : i1 ≠ i2) :
    crossQ ((corrPair c i1 i2).1.sub b) u = 0 ∧
    crossQ ((corrPair c i1 i2).2.sub b) u = 0 := by
  simp only [crossQ, Coord.sub] at h1 h2
  by_cases hux : u.x = 0 ∧ u.y = 0
  · constructor <;>
      (simp only [corrPair, crossQ, Coord.sub, hux.1, hux.2]; ring)
  · have hdu : (i2.x - i1.x) * u.y - u.x * (i2.y - i1.y) = 0 := by
      linear_combination h2 - h1
    have hdne : ¬(i2.x - i1.x = 0 ∧ i2.y - i1.y = 0) := by
      rintro ⟨ha, hb⟩
      exact hne (coord_eq i1 i2 (by linarith) (by linarith))
    have habs : |i2.x - i1.x| * |u.y| = |i2.y - i1.y| * |u.x| := by
      have h9 : (i2.x - i1.x) * u.y = (i2.y - i1.y) * u.x := by
        linear_combination hdu
      calc |i2.x - i1.x| * |u.y| = |(i2.x - i1.x) * u.y| := (abs_mul _ _).symm
        _ = |(i2.y - i1.y) * u.x| := by rw [h9]
        _ = |i2.y - i1.y| * |u.x| := abs_mul _ _
    have hcd : c.x * |i2.y - i1.y| = c.y * |i2.x - i1.x| := by
      rcases not_and_or.mp hux with hu | hu
      · have h9 : (c.x * |i2.y - i1.y| - c.y * |i2.x - i1.x|) * |u.x| = 0 := by
          linear_combination (-c.x) * habs + |i2.x - i1.x| * hc
        rcases mul_eq_zero.mp h9 with h | h
        · linarith
        · exact absurd (abs_eq_zero.mp h) hu
      · have h9 : (c.x * |i2.y - i1.y| - c.y * |i2.x - i1.x|) * |u.y| = 0 := by
          linear_combination (-c.y) * habs + |i2.y - i1.y| * hc
        rcases mul_eq_zero.mp h9 with h | h
        · linarith
        · exact absurd (abs_eq_zero.mp h) hu
    simp only [corrPair, crossQ, Coord.sub]
    split_ifs with hx hy hy
    · -- i2.x > i1.x, i2.y > i1.y
      rw [abs_of_pos (by linarith : (0:ℚ) < i2.x - i1.x),
        abs_of_pos (by linarith : (0:ℚ) < i2.y - i1.y)] at hcd
      have h10 : (i2.x - i1.x) * (c.x * u.y - c.y * u.x) = 0 := by
        linear_combination u.x * hcd + c.x * hdu
      have key : c.x * u.y - c.y * u.x = 0 := by
        rcases mul_eq_zero.mp h10 with h | h
        · exact absurd h (by linarith)
        · exact h
      constructor
      · linear_combination h1 + key
      · linear_combination h2 - key
    · -- i2.x > i1.x, i2.y ≤ i1.y
      rw [abs_of_pos (by linarith : (0:ℚ) < i2.x - i1.x),
        abs_of_nonpos (by linarith : i2.y - i1.y ≤ (0:ℚ))] at hcd
      have h10 : (i2.x - i1.x) * (c.x * u.y + c.y * u.x) = 0 := by
        linear_combination (-u.x) * hcd + c.x * hdu
      have key : c.x * u.y + c.y * u.x = 0 := by
        rcases mul_eq_zero.mp h10 with h | h
        · exact absurd h (by linarith)
        · exact h
      constructor
      · linear_combination h1 + key
      · linear_combination h2 - key
    · -- i2.x ≤ i1.x, i2.y > i1.y
      rw [abs_of_nonpos (by linarith : i2.x - i1.x ≤ (0:ℚ)),
        abs_of_pos (by linarith : (0:ℚ) < i2.y - i1.y)] at hcd
      have h10 : (i2.y - i1.y) * (c.x * u.y + c.y * u.x) = 0 := by
        linear_combination u.y * hcd + (-c.y) * hdu
      have key : c.x * u.y + c.y * u.x = 0 := by
        rcases mul_eq_zero.mp h10 with h | h
        · exact absurd h (by linarith)
        · exact h
      constructor
      · linear_combination h1 - key
      · linear_combination h2 + key
    · -- i2.x ≤ i1.x, i2.y ≤ i1.y
      rw [abs_of_nonpos (by linarith : i2.x - i1.x ≤ (0:ℚ)),
        abs_of_nonpos (by linarith : i2.y - i1.y ≤ (0:ℚ))] at hcd
      have key : c.x * u.y - c.y * u.x = 0 := by
        by_cases hdx : i2.x - i1.x = 0
        · have hdy : i2.y - i1.y ≠ 0 := fun h => hdne ⟨hdx, h⟩
          have h10 : (i2.y - i1.y) * (c.x * u.y - c.y * u.x) = 0 := by
            linear_combination (-u.y) * hcd + c.y * hdu
          rcases mul_eq_zero.mp h10 with h | h
          · exact absurd h hdy
          · exact h
        · have h10 : (i2.x - i1.x) * (c.x * u.y - c.y * u.x) = 0 := by
            linear_combination (-u.x) * hcd + c.x * hdu
          rcases mul_eq_zero.mp h10 with h | h
          · exact absurd h hdx
          · exact h
      constructor
      · linear_combination h1 - key
      · linear_combination h2 + key

/-- Everything emitted by one `traverse` iteration carries that
iteration's index and has both endpoints on the host line through `b`
with direction `u`, provided the raw pair lies on that line and the
correction components fit the line's direction. -/
theorem travEmit_members (g : Geo) (c : Coord) (j : Nat) (i1 i2 b u : Coord)
    (hc : c.x * |u.y| = c.y * |u.x|)
    (h1 : crossQ (i1.sub b) u = 0) (h2 : crossQ (i2.sub b) u = 0)
    (hne : i1 ≠ i2) :
    ∀ q ∈ travEmit g c j i1 i2, q.1 = j ∧
      crossQ (q.2.v1.sub b) u = 0 ∧ crossQ (q.2.v2.sub b) u = 0 := by
  intro q hq
  obtain ⟨hcp1, hcp2⟩ := corrPair_online b u c i1 i2 hc h1 h2 hne
  simp only [travEmit] at hq
  repeat' split at hq
  all_goals first
    | (rcases List.mem_singleton.1 hq with rfl
       exact ⟨rfl, by simpa [mkEdge_v1] using hcp1,
         by simpa [mkEdge_v2] using hcp2⟩)
    | (rcases List.mem_singleton.1 hq with rfl
       exact ⟨rfl, by simpa [mkEdge_v1] using hcp2,
         by simpa [mkEdge_v2] using hcp1⟩)
    | cases hq

/-- One `traverse` iteration emits nothing or exactly one tagged
edge. -/
theorem travEmit_shape (g : Geo) (c : Coord) (j : Nat) (i1 i2 : Coord) :
    travEmit g c j i1 i2 = [] ∨ ∃ e, travEmit g c j i1 i2 = [(j, e)] := by
  simp only [travEmit]
  repeat' split
  all_goals first
    | exact Or.inl rfl
    | exact Or.inr ⟨_, rfl⟩

/-- Unfolding equation of the `traverse` loop. -/
theorem travLoop_succ (g : Geo) (corrF : Coord → Coord) (off : Coord)
    (p : Pgon) (fuel : Nat) (sweep : Edge) (j : Nat) :
    travLoop g corrF off p (fuel + 1) sweep j =
    (match scanInter sweep p 0 with
     | none => some []
     | some (inter1, next) =>
       let emitted : List (Nat × Edge) :=
         match scanInter sweep p next with
         | none => []
         | some (inter2, _) =>
           travEmit g (corrF (sweep.v2.sub sweep.v1)) j inter1 inter2
       match travLoop g corrF off p fuel (shiftE sweep off) (j + 1) with
       | some rest => some (emitted ++ rest)
       | none => none) := rfl

/-- Translating the sweep line preserves its endpoint difference. -/
theorem shiftE_sub (e : Edge) (d : Coord) :
    (shiftE e d).v2.sub (shiftE e d).v1 = e.v2.sub e.v1 := by
  simp only [shiftE, Coord.sub, Coord.mk.injEq]
  constructor <;> ring

/-- Nondegeneracy extraction: when the check passes and both scans hit,
the two raw intersections are distinct. -/
theorem rawDistinctB_spec (p : Pgon) (s : Edge) (i1 : Coord) (nx : Nat)
    (i2 : Coord) (nx2 : Nat) (hd : rawDistinctB p s = true)
    (h1 : scanInter s p 0 = some (i1, nx))
    (h2 : scanInter s p nx = some (i2, nx2)) :
    i1 ≠ i2 := by
  unfold rawDistinctB rawPairAt at hd
  rw [h1] at hd
  simp only at hd
  rw [h2] at hd
  simpa using hd

/-- Loop invariant of `travLoop`: starting iteration `j` on a sweep
line with endpoint difference `u`, every emitted tagged edge `(k, e)`
has `j ≤ k`, both of `e`'s endpoints lie on the translate of the
starting sweep line by `(k - j)` offset steps, and the tags are
strictly increasing along the output. -/
theorem travLoop_members (g : Geo) (corrF : Coord → Coord) (off : Coord)
    (p : Pgon) (u : Coord)
    (hc : (corrF u).x * |u.y| = (corrF u).y * |u.x|) :
    ∀ (fuel : Nat) (sweep : Edge) (j : Nat) (ws : List (Nat × Edge)),
      sweep.v2.sub sweep.v1 = u →
      (∀ k, k < fuel → rawDistinctB p (sweepShift off k sweep) = true) →
      travLoop g corrF off p fuel sweep j = some ws →
      (∀ q ∈ ws, j ≤ q.1 ∧
        crossQ (q.2.v1.sub (sweep.v1.add (off.smul ((q.1 - j : ℕ) : ℚ)))) u = 0 ∧
        crossQ (q.2.v2.sub (sweep.v1.add (off.smul ((q.1 - j : ℕ) : ℚ)))) u = 0) ∧
      ws.Chain' (fun a b => a.1 < b.1) := by
  intro fuel
  induction fuel with
  | zero => intro sweep j ws _ _ h; cases h
  | succ fuel ih =>
    intro sweep j ws hu hnd h
    rw [travLoop_succ] at h
    cases hs1 : scanInter sweep p 0 with
    | none =>
      rw [hs1] at h
      cases h
      exact ⟨by simp, by simp⟩
    | some pr1 =>
      obtain ⟨inter1, next⟩ := pr1
      rw [hs1] at h
      simp only at h
      cases hrec : travLoop g corrF off p fuel (shiftE sweep off) (j + 1) with
      | none => rw [hrec] at h; cases h
      | some rest =>
        rw [hrec] at h
        have hu' : (shiftE sweep off).v2.sub (shiftE sweep off).v1 = u := by
          rw [shiftE_sub]; exact hu
        have hnd' : ∀ k, k < fuel →
            rawDistinctB p (sweepShift off k (shiftE sweep off)) = true :=
          fun k hk => hnd (k + 1) (by omega)
        have hrest := ih (shiftE sweep off) (j + 1) rest hu' hnd' hrec
        have hbase : ∀ n : ℕ,
            (shiftE sweep off).v1.add (off.smul (n : ℚ)) =
            sweep.v1.add (off.smul ((n + 1 : ℕ) : ℚ)) := by
          intro n
          simp only [shiftE, Coord.add, Coord.smul, Coord.mk.injEq]
          push_cast
          constructor <;> ring
        have hrest1 : ∀ q ∈ rest, j ≤ q.1 ∧
            crossQ (q.2.v1.sub (sweep.v1.add (off.smul ((q.1 - j : ℕ) : ℚ)))) u = 0 ∧
            crossQ (q.2.v2.sub (sweep.v1.add (off.smul ((q.1 - j : ℕ) : ℚ)))) u = 0 := by
          intro q hq
          obtain ⟨hk, hv1, hv2⟩ := hrest.1 q hq
          have hsub : (q.1 - j : ℕ) = (q.1 - (j + 1) : ℕ) + 1 := by omega
          refine ⟨by omega, ?_, ?_⟩
          · rw [hsub, ← hbase]; exact hv1
          · rw [hsub, ← hbase]; exact hv2
        cases hs2 : scanInter sweep p next with
        | none =>
          rw [hs2] at h
          simp only at h
          cases h
          exact ⟨fun q hq => hrest1 q (by simpa using hq), by simpa using hrest.2⟩
        | some pr2 =>
          obtain ⟨inter2, nx2⟩ := pr2
          rw [hs2] at h
          simp only at h
          cases h
          have hne : inter1 ≠ inter2 :=
            rawDistinctB_spec p sweep inter1 next inter2 nx2
              (hnd 0 (by omega)) hs1 hs2
          have hon1 : crossQ (inter1.sub sweep.v1) u = 0 := by
            have h9 := scanInter_online sweep p 0 inter1 next hs1
            rwa [hu] at h9
          have hon2 : crossQ (inter2.sub sweep.v1) u = 0 := by
            have h9 := scanInter_online sweep p next inter2 nx2 hs2
            rwa [hu] at h9
          have hb0 : sweep.v1.add (off.smul ((j - j : ℕ) : ℚ)) = sweep.v1 := by
            simp [Coord.add, Coord.smul]
          refine ⟨?_, ?_⟩
          · intro q hq
            rcases List.mem_append.1 hq with hq | hq
            · obtain ⟨hj, hv1, hv2⟩ :=
                travEmit_members g (corrF (sweep.v2.sub sweep.v1)) j inter1
                  inter2 sweep.v1 u (by rw [hu]; exact hc) hon1 hon2 hne q hq
              refine ⟨by omega, ?_, ?_⟩
              · rw [hj, hb0]; exact hv1
              · rw [hj, hb0]; exact hv2
            · exact hrest1 q hq
          · rcases travEmit_shape g (corrF (sweep.v2.sub sweep.v1)) j inter1
                inter2 with he | ⟨e, he⟩
            · rw [he]
              simpa using hrest.2
            · rw [he, List.cons_append, List.nil_append, List.chain'_cons']
              refine ⟨?_, hrest.2⟩
              intro y hy'
              have hk := (hrest.1 y (List.mem_of_mem_head? hy')).1
              simp only
              omega

/-- The final clearance check returns the emitted list unchanged or
with its last element dropped. -/
theorem clearanceDrop_eq_or (g : Geo) (p : Pgon) (w : Edge)
    (ws : List (Nat × Edge)) :
    clearanceDrop g p w ws = ws ∨ clearanceDrop g p w ws = ws.dropLast := by
  unfold clearanceDrop
  rcases hg : ws.getLast? with _ | pr
  · exact Or.inl rfl
  · simp only
    split_ifs with h1 h2
    · exact Or.inr rfl
    · exact Or.inr rfl
    · exact Or.inl rfl

/-- Claim C4 as amended: in `traverse`, every sweep segment emitted at
loop iteration `j` has both endpoints on the host line obtained by
translating the extended width-span line by `(j+1)` offset steps, and
the emitted iteration indices strictly increase; the offset step is
perpendicular to the host lines with norm exactly `OFFSET` (stated
square-free: the squared cross product of step and direction equals
`OFFSET²` times the squared direction norm), so consecutive emitted
sweep segments lie on parallel host lines whose perpendicular
separation is a positive integer multiple of `OFFSET` — exactly
`OFFSET` when emitted on consecutive iterations, as claimed.  In
`naiveTraverse` the same holds with `OFFSET/2` in place of `OFFSET`
(the sweep advances by `OFFSET/2.0` per iteration), refuting the
claimed `OFFSET` spacing for the naive half.  The hypotheses state the
trigonometric facts about the abstracted primitives (correction
components proportional to the componentwise absolute direction;
offset step perpendicular to the sweep direction with norm `OFFSET`)
and the nondegeneracy of each sweep position's intersection pair. -/
theorem C4_sweep_host_lines
    (g : Geo) (corrF : Coord → Coord) (p : Pgon) (fuel : Nat)
    (ws : List (Nat × Edge)) (ht : traverseF g corrF p fuel = some ws)
    (hcor : (corrF (travDir g p)).x * |(travDir g p).y| =
            (corrF (travDir g p)).y * |(travDir g p).x|)
    (hperp : (travOff g p).x * (travDir g p).x +
             (travOff g p).y * (travDir g p).y = 0)
    (hnorm : (travOff g p).x * (travOff g p).x +
             (travOff g p).y * (travOff g p).y = OFFSETQ * OFFSETQ)
    (hnd : ∀ k, k < fuel →
      rawDistinctB p (sweepShift (travOff g p) k (travStart g p)) = true)
    (pn : Pgon) (fn : Nat) (wn : List (Nat × Edge))
    (hn : naiveTraverseF pn fn = some wn) :
    ((∀ q ∈ ws,
        onLineQ ((travBase g p).v1.add ((travOff g p).smul ((q.1 + 1 : ℕ) : ℚ)))
          (travDir g p) q.2.v1 ∧
        onLineQ ((travBase g p).v1.add ((travOff g p).smul ((q.1 + 1 : ℕ) : ℚ)))
          (travDir g p) q.2.v2) ∧
      ws.Chain' (fun a b => a.1 < b.1) ∧
      crossQ (travOff g p) (travDir g p) * crossQ (travOff g p) (travDir g p) =
        OFFSETQ * OFFSETQ *
          ((travDir g p).x * (travDir g p).x +
           (travDir g p).y * (travDir g p).y)) ∧
    ((∀ q ∈ wn,
        q.2.v1.y = (minYInt pn : ℚ) + (q.1 + 1 : ℚ) * (OFFSETQ / 2) ∧
        q.2.v2.y = (minYInt pn : ℚ) + (q.1 + 1 : ℚ) * (OFFSETQ / 2)) ∧
      wn.Chain' (fun a b => a.1 < b.1)) := by
  unfold naiveTraverseF at hn
  have hmn := naiveLoop_members pn fn _ 0 wn rfl hn
  unfold traverseF at ht
  cases hloop : travLoop g corrF (travOff g p) p fuel (travStart g p) 0 with
  | none => rw [hloop] at ht; cases ht
  | some ws0 =>
    rw [hloop] at ht
    cases ht
    have hdir : (travStart g p).v2.sub (travStart g p).v1 = travDir g p := by
      unfold travStart travDir
      exact shiftE_sub _ _
    have hm := travLoop_members g corrF (travOff g p) p (travDir g p) hcor
      fuel (travStart g p) 0 ws0 hdir hnd hloop
    have hbase : ∀ n : ℕ,
        (travStart g p).v1.add ((travOff g p).smul ((n - 0 : ℕ) : ℚ)) =
        (travBase g p).v1.add ((travOff g p).smul ((n + 1 : ℕ) : ℚ)) := by
      intro n
      unfold travStart
      simp only [shiftE, Coord.add, Coord.smul, Nat.sub_zero, Coord.mk.injEq]
      push_cast
      constructor <;> ring
    have hsub : ∀ q : Nat × Edge,
        q ∈ clearanceDrop g p (travWidthEdge g p) ws0 → q ∈ ws0 := by
      rcases clearanceDrop_eq_or g p (travWidthEdge g p) ws0 with hcd | hcd <;>
        rw [hcd]
      · exact fun q hq => hq
      · exact fun q hq => mem_of_mem_dropLastQ ws0 q hq
    have hchain : (clearanceDrop g p (travWidthEdge g p) ws0).Chain'
        (fun a b => a.1 < b.1) := by
      rcases clearanceDrop_eq_or g p (travWidthEdge g p) ws0 with hcd | hcd <;>
        rw [hcd]
      · exact hm.2
      · exact chainQ_dropLast _ _ hm.2
    refine ⟨⟨?_, hchain, ?_⟩, ?_, hmn.2⟩
    · intro q hq
      obtain ⟨_, hv1, hv2⟩ := hm.1 q (hsub q hq)
      unfold onLineQ
      constructor
      · rw [← hbase q.1]; exact hv1
      · rw [← hbase q.1]; exact hv2
    · simp only [crossQ]
      linear_combination
        ((travDir g p).x * (travDir g p).x +
         (travDir g p).y * (travDir g p).y) * hnorm -
        ((travOff g p).x * (travDir g p).x +
         (travOff g p).y * (travDir g p).y) * hperp
    · intro q hq
      obtain ⟨_, hv1, hv2⟩ := hmn.1 q hq
      simp only [Nat.sub_zero] at hv1 hv2
      constructor
      · rw [hv1]; ring
      · rw [hv2]; ring

set_option maxRecDepth 10000 in
/-- Witness for the amended C4: `traverse` and `naiveTraverse` on the
100 × 100 square, with the axis-aligned exact instantiation of the
trigonometric primitives. -/
theorem C4_sweep_host_lines_witness :
    (traverseF geoAx corrAx sq100 4 =
       some ((traverseF geoAx corrAx sq100 4).getD []) ∧
     naiveTraverseF sq100 10 =
       some ((naiveTraverseF sq100 10).getD [])) ∧
    (((∀ q ∈ (traverseF geoAx corrAx sq100 4).getD [],
        onLineQ ((travBase geoAx sq100).v1.add
            ((travOff geoAx sq100).smul ((q.1 + 1 : ℕ) : ℚ)))
          (travDir geoAx sq100) q.2.v1 ∧
        onLineQ ((travBase geoAx sq100).v1.add
            ((travOff geoAx sq100).smul ((q.1 + 1 : ℕ) : ℚ)))
          (travDir geoAx sq100) q.2.v2) ∧
      ((traverseF geoAx corrAx sq100 4).getD []).Chain'
        (fun a b => a.1 < b.1) ∧
      crossQ (travOff geoAx sq100) (travDir geoAx sq100) *
          crossQ (travOff geoAx sq100) (travDir geoAx sq100) =
        OFFSETQ * OFFSETQ *
          ((travDir geoAx sq100).x * (travDir geoAx sq100).x +
           (travDir geoAx sq100).y * (travDir geoAx sq100).y)) ∧
     ((∀ q ∈ (naiveTraverseF sq100 10).getD [],
        q.2.v1.y = (minYInt sq100 : ℚ) + (q.1 + 1 : ℚ) * (OFFSETQ / 2) ∧
        q.2.v2.y = (minYInt sq100 : ℚ) + (q.1 + 1 : ℚ) * (OFFSETQ / 2)) ∧
      ((naiveTraverseF sq100 10).getD []).Chain'
        (fun a b => a.1 < b.1))) :=
  ⟨⟨by with_unfolding_all decide, by with_unfolding_all decide⟩,
   C4_sweep_host_lines geoAx corrAx sq100 4 _
     (by with_unfolding_all decide) (by with_unfolding_all decide)
     (by with_unfolding_all decide) (by with_unfolding_all rfl)
     (by with_unfolding_all decide)
     sq100 10 _ (by with_unfolding_all decide)⟩
